import Mathlib

/-!
Shallow embedding of the Foreign Transaction Manager (FXM) of
src/backend/access/fdwxact/fdwxact.c and src/include/access/fdwxact.h,
together with proofs about the claims of the specification.

Modelling conventions:
* C `Oid` and `TransactionId` become `Nat`; `InvalidXLogRecPtr` is `0`.
* `ereport(ERROR, ...)` becomes an `Except`/error-field result; the error
  value names the errcode that the C call site reports.
* The shared-memory free list (`FdwXactCtl->freeFdwXacts`) links
  otherwise-contentless slots: a slot's bytes are fully overwritten by
  `insert_fdw_xact` (and its `status` is always `FDW_XACT_INITIAL`, set by
  `FdwXactShmemInit` and reset by `remove_fdw_xact`).  The free list is
  therefore modelled by the number of free slots, and the active array
  `FdwXactCtl->fdw_xacts[0..numFdwXacts)` by a list of entries.
-/

/-- `FdwXactStatus` of fdwxact.h: state of a prepared foreign transaction. -/
inductive FdwXactStatus where
  | initial
  | preparing
  | prepared
  | committing_prepared
  | aborting_prepared
deriving DecidableEq, Repr

/-- `DistributedAtomicCommitLevel` of fdwxact.h. -/
inductive DistributedAtomicCommitLevel where
  | disabled
  | prefer
  | required
deriving DecidableEq, Repr

/-- The unique key of an FXact entry: (dbid, local_xid, serverid, userid). -/
structure FdwXactKey where
  dbid : Nat
  local_xid : Nat
  serverid : Nat
  userid : Nat
deriving DecidableEq, Repr

/-- `FdwXactData` of fdwxact.h (the link pointers `fxact_free_next` and
`fxact_next` are representation artifacts of the C pool and chain and are
not part of the value). `held_by = none` models `InvalidBackendId`. -/
structure FdwXactData where
  dbid : Nat
  local_xid : Nat
  serverid : Nat
  userid : Nat
  umid : Nat
  status : FdwXactStatus
  insert_start_lsn : Nat
  insert_end_lsn : Nat
  valid : Bool
  held_by : Option Nat
  ondisk : Bool
  inredo : Bool
  fdw_xact_id : String
deriving DecidableEq, Repr

/-- The key of an entry. -/
def fxactKey (f : FdwXactData) : FdwXactKey :=
  ⟨f.dbid, f.local_xid, f.serverid, f.userid⟩

/-- `FdwXactCtlData`: the shared-memory table.  `fdw_xacts` is the active
array `fdw_xacts[0..numFdwXacts)` in order; `numFree` is the length of the
free list (see the modelling note at the top of the file). -/
structure FdwXactCtlData where
  fdw_xacts : List FdwXactData
  numFree : Nat
deriving DecidableEq, Repr

/-- Error values, named after the condition the C `ereport` call reports. -/
inductive FdwErr where
  | duplicate_entry            -- insert_fdw_xact: "could not insert a foreign transaction entry"
  | max_prepared_reached       -- insert_fdw_xact: "maximum number of foreign transactions reached"
  | entry_not_found            -- remove_fdw_xact: "could not remove a foreign transaction entry"
  | feature_not_supported      -- PreCommit_FdwXacts: ERRCODE_FEATURE_NOT_SUPPORTED
  | prepared_xacts_disabled    -- FdwXactPrepareForeignTransactions: max_prepared_foreign_xacts == 0
  | resolvers_disabled         -- FdwXactPrepareForeignTransactions: max_foreign_xact_resolvers == 0
  | undefined_object           -- FdwXactPrepareForeignTransactions: id not provided
  | name_too_long              -- FdwXactPrepareForeignTransactions: ERRCODE_NAME_TOO_LONG
  | prepare_failed             -- FdwXactPrepareForeignTransactions: "could not prepare transaction"
  | commit_failed              -- FdwXactCommitForeignTransaction: "could not commit"
  | resolve_failed             -- FdwXactResolveForeignTransaction: "could not %s a prepared foreign transaction"
  | in_progress_xact           -- FdwXactResolveForeignTransaction: in-progress local transaction
deriving DecidableEq, Repr

/-- Keys of the active array. -/
def keyList (l : List FdwXactData) : List FdwXactKey :=
  l.map fxactKey

/-- Pairwise key uniqueness of the active array. -/
def uniqK (l : List FdwXactData) : Prop :=
  (keyList l).Nodup

instance (l : List FdwXactData) : Decidable (uniqK l) := by
  unfold uniqK; infer_instance

/-- The fixed slot-pool size: active entries plus free slots partition the
pool of `max_prepared_foreign_xacts` slots. -/
def capInv (cap : Nat) (ctl : FdwXactCtlData) : Prop :=
  ctl.fdw_xacts.length + ctl.numFree = cap

instance (cap : Nat) (ctl : FdwXactCtlData) : Decidable (capInv cap ctl) := by
  unfold capInv; infer_instance

/-- `insert_fdw_xact` (fdwxact.c:730).  Checks for a duplicated key over the
whole active array, then takes a slot from the free list (error if none are
left), appends it to the active array and populates every field.  The C
function leaves `status` untouched; a free slot always holds
`FDW_XACT_INITIAL` (set by `FdwXactShmemInit`, reset by `remove_fdw_xact`),
so the new entry carries that status. -/
def insert_fdw_xact (ctl : FdwXactCtlData) (dbid xid serverid userid umid : Nat)
    (fdw_xact_id : String) : Except FdwErr (FdwXactData × FdwXactCtlData) :=
  if ctl.fdw_xacts.any (fun f => fxactKey f == ⟨dbid, xid, serverid, userid⟩) then
    .error .duplicate_entry
  else if ctl.numFree = 0 then
    .error .max_prepared_reached
  else
    let fxact : FdwXactData :=
      { dbid := dbid, local_xid := xid, serverid := serverid, userid := userid,
        umid := umid, status := .initial, insert_start_lsn := 0,
        insert_end_lsn := 0, valid := false, held_by := none, ondisk := false,
        inredo := false, fdw_xact_id := fdw_xact_id }
    .ok (fxact, { fdw_xacts := ctl.fdw_xacts ++ [fxact], numFree := ctl.numFree - 1 })

/-- Removal from the active array as the C loop does it: the last element of
the array is moved into the removed slot and `numFdwXacts` is decremented. -/
def removeSwap (l : List α) (i : Nat) : List α :=
  match l.getLast? with
  | none => []
  | some x => (l.set i x).dropLast

/-- The search loop of `remove_fdw_xact`: index of the first entry with the
given key in the active array. -/
def scanIdx (k : FdwXactKey) : List FdwXactData → Option Nat
  | [] => none
  | f :: rest => if fxactKey f == k then some 0 else (scanIdx k rest).map (· + 1)

/-- `remove_fdw_xact` (fdwxact.c:793).  The C function receives a pointer to
the entry; callers obtain it from the active array, so the embedding looks
the entry up by its unique key.  If the entry is not in the array the
function errors; otherwise the entry is swap-removed from the active array
and its slot returns to the free list (the slot's fields are reset, which
the free-slot-count model absorbs).  Outside WAL replay a REMOVE record is
written and flushed; `in_redo` tells whether we are replaying, and the
returned flag reports whether a REMOVE record was emitted. -/
def remove_fdw_xact (in_redo : Bool) (ctl : FdwXactCtlData) (k : FdwXactKey) :
    Except FdwErr (FdwXactCtlData × Bool) :=
  match scanIdx k ctl.fdw_xacts with
  | none => .error .entry_not_found
  | some i =>
      .ok ({ fdw_xacts := removeSwap ctl.fdw_xacts i, numFree := ctl.numFree + 1 },
           !in_redo)

/-- `get_fdw_xacts` (fdwxact.c:1753) with all-valid search arguments: the
entries matching a full key. -/
def get_fdw_xacts (ctl : FdwXactCtlData) (k : FdwXactKey) : List FdwXactData :=
  ctl.fdw_xacts.filter (fun f => fxactKey f == k)

/-- `get_one_fdw_xact` (fdwxact.c:1663): the unique entry with the key, if
any. -/
def get_one_fdw_xact (ctl : FdwXactCtlData) (k : FdwXactKey) : Option FdwXactData :=
  (get_fdw_xacts ctl k).head?

/- ------------------------------------------------------------------ -/
/- Basic lemmas about the table operations.                            -/
/- ------------------------------------------------------------------ -/

theorem removeSwap_of_last (l₁ : List α) (x : α) :
    removeSwap (l₁ ++ [x]) l₁.length = l₁ := by
  unfold removeSwap
  rw [List.getLast?_concat]
  have hset : (l₁ ++ [x]).set l₁.length x = l₁ ++ [x] := by
    induction l₁ with
    | nil => rfl
    | cons a t ih => simp [List.set, ih]
  show ((l₁ ++ [x]).set l₁.length x).dropLast = l₁
  rw [hset, List.dropLast_concat]

theorem removeSwap_of_middle (l₁ l₂ : List α) (x y : α) :
    removeSwap (l₁ ++ x :: (l₂ ++ [y])) l₁.length = l₁ ++ y :: l₂ := by
  unfold removeSwap
  have hlast : (l₁ ++ x :: (l₂ ++ [y])).getLast? = some y := by
    rw [show l₁ ++ x :: (l₂ ++ [y]) = (l₁ ++ x :: l₂) ++ [y] by simp]
    exact List.getLast?_concat _
  rw [hlast]
  have hset : (l₁ ++ x :: (l₂ ++ [y])).set l₁.length y = l₁ ++ y :: (l₂ ++ [y]) := by
    induction l₁ with
    | nil => rfl
    | cons a t ih => simp [List.set, ih]
  show ((l₁ ++ x :: (l₂ ++ [y])).set l₁.length y).dropLast = l₁ ++ y :: l₂
  rw [hset, show l₁ ++ y :: (l₂ ++ [y]) = (l₁ ++ y :: l₂) ++ [y] by simp,
     List.dropLast_concat]

theorem scanIdx_decomp {k : FdwXactKey} :
    ∀ {l : List FdwXactData} {i : Nat}, scanIdx k l = some i →
      ∃ l₁ x l₂, l = l₁ ++ x :: l₂ ∧ l₁.length = i ∧ fxactKey x = k ∧
        ∀ y ∈ l₁, fxactKey y ≠ k := by
  intro l
  induction l with
  | nil => intro i h; simp [scanIdx] at h
  | cons f rest ih =>
    intro i h
    by_cases hf : fxactKey f = k
    · simp only [scanIdx, show (fxactKey f == k) = true by simpa using hf,
        reduceIte, Option.some.injEq] at h
      exact ⟨[], f, rest, by simp, by simpa using h, hf, by simp⟩
    · have hbeq : (fxactKey f == k) = false := by
        simpa using hf
      simp only [scanIdx, hbeq, Bool.false_eq_true, reduceIte,
        Option.map_eq_some'] at h
      obtain ⟨j, hj, hji⟩ := h
      obtain ⟨l₁, x, l₂, hdec, hlen, hx, hl₁⟩ := ih hj
      refine ⟨f :: l₁, x, l₂, by simp [hdec], by simp [hlen, hji], hx, ?_⟩
      intro y hy
      rcases List.mem_cons.1 hy with h1 | h1
      · exact h1 ▸ hf
      · exact hl₁ y h1

theorem removeSwap_perm (l₁ l₂ : List α) (x : α) :
    (removeSwap (l₁ ++ x :: l₂) l₁.length).Perm (l₁ ++ l₂) := by
  induction l₂ using List.reverseRecOn with
  | nil => rw [show l₁ ++ [x] = l₁ ++ [x] from rfl, removeSwap_of_last]; simp
  | append_singleton l₂' y _ =>
    rw [removeSwap_of_middle]
    exact List.Perm.append_left l₁ (List.perm_append_singleton y l₂').symm

theorem keyList_append (l₁ l₂ : List FdwXactData) :
    keyList (l₁ ++ l₂) = keyList l₁ ++ keyList l₂ := by
  simp [keyList]

/-- The entries that remain after a swap-removal are a sub-permutation of
the original array: membership and key-uniqueness carry over. -/
theorem removeSwap_keys_subperm (l₁ l₂ : List FdwXactData) (x : FdwXactData) :
    (keyList (removeSwap (l₁ ++ x :: l₂) l₁.length)).Subperm
      (keyList (l₁ ++ x :: l₂)) := by
  have hperm := (removeSwap_perm l₁ l₂ x).map fxactKey
  have hsub : (keyList (l₁ ++ l₂)).Sublist (keyList (l₁ ++ x :: l₂)) := by
    rw [keyList_append, keyList_append]
    exact (List.sublist_cons_self (fxactKey x) (keyList l₂)).append_left _
  exact ⟨keyList (l₁ ++ l₂), hperm.symm, hsub⟩

theorem insert_fdw_xact_ok {ctl : FdwXactCtlData}
    {dbid xid serverid userid umid : Nat} {id : String} {e : FdwXactData}
    {ctl' : FdwXactCtlData}
    (h : insert_fdw_xact ctl dbid xid serverid userid umid id = .ok (e, ctl')) :
    (∀ f ∈ ctl.fdw_xacts, fxactKey f ≠ ⟨dbid, xid, serverid, userid⟩) ∧
      ctl.numFree ≠ 0 ∧
      fxactKey e = ⟨dbid, xid, serverid, userid⟩ ∧
      ctl'.fdw_xacts = ctl.fdw_xacts ++ [e] ∧
      ctl'.numFree = ctl.numFree - 1 := by
  unfold insert_fdw_xact at h
  by_cases hdup : ctl.fdw_xacts.any (fun f => fxactKey f == ⟨dbid, xid, serverid, userid⟩)
  · simp [hdup] at h
  · by_cases hfree : ctl.numFree = 0
    · simp [hdup, hfree] at h
    · simp only [hdup, hfree, Bool.false_eq_true, not_false_iff, if_neg,
        reduceIte, Except.ok.injEq, Prod.mk.injEq] at h
      obtain ⟨he, hctl⟩ := h
      refine ⟨?_, hfree, by simp [← he, fxactKey], by simp [← hctl, ← he], by simp [← hctl]⟩
      simpa using hdup

theorem remove_fdw_xact_ok {in_redo : Bool} {ctl : FdwXactCtlData}
    {k : FdwXactKey} {ctl' : FdwXactCtlData} {r : Bool}
    (h : remove_fdw_xact in_redo ctl k = .ok (ctl', r)) :
    ∃ l₁ x l₂, ctl.fdw_xacts = l₁ ++ x :: l₂ ∧ fxactKey x = k ∧
      (∀ y ∈ l₁, fxactKey y ≠ k) ∧
      ctl'.fdw_xacts = removeSwap ctl.fdw_xacts l₁.length ∧
      ctl'.numFree = ctl.numFree + 1 ∧ r = !in_redo := by
  unfold remove_fdw_xact at h
  cases hscan : scanIdx k ctl.fdw_xacts with
  | none => rw [hscan] at h; exact absurd h (by simp)
  | some i =>
    rw [hscan] at h
    simp only [Except.ok.injEq, Prod.mk.injEq] at h
    obtain ⟨hctl, hr⟩ := h
    obtain ⟨l₁, x, l₂, hdec, hlen, hx, hl₁⟩ := scanIdx_decomp hscan
    exact ⟨l₁, x, l₂, hdec, hx, hl₁, by simp [← hctl, hlen], by simp [← hctl], hr.symm⟩

theorem uniqK_of_insert_ok {ctl : FdwXactCtlData}
    {dbid xid serverid userid umid : Nat} {id : String} {e : FdwXactData}
    {ctl' : FdwXactCtlData} (hU : uniqK ctl.fdw_xacts)
    (h : insert_fdw_xact ctl dbid xid serverid userid umid id = .ok (e, ctl')) :
    uniqK ctl'.fdw_xacts := by
  obtain ⟨hnodup, -, hkey, hctl, -⟩ := insert_fdw_xact_ok h
  unfold uniqK at hU ⊢
  rw [hctl, keyList_append]
  rw [List.nodup_append]
  refine ⟨hU, by simp [keyList], ?_⟩
  intro a ha hb
  have hb' : a = fxactKey e := by simpa [keyList] using hb
  obtain ⟨f, hf, hfk⟩ := by simpa [keyList] using ha
  exact hnodup f hf (by rw [hfk, hb', hkey])

theorem capInv_of_insert_ok {cap : Nat} {ctl : FdwXactCtlData}
    {dbid xid serverid userid umid : Nat} {id : String} {e : FdwXactData}
    {ctl' : FdwXactCtlData} (hcap : capInv cap ctl)
    (h : insert_fdw_xact ctl dbid xid serverid userid umid id = .ok (e, ctl')) :
    capInv cap ctl' := by
  obtain ⟨-, hfree, -, hctl, hfree'⟩ := insert_fdw_xact_ok h
  unfold capInv at hcap ⊢
  rw [hctl, hfree', List.length_append]
  simp only [List.length_cons, List.length_nil]
  omega

theorem uniqK_of_remove_ok {in_redo : Bool} {ctl : FdwXactCtlData}
    {k : FdwXactKey} {ctl' : FdwXactCtlData} {r : Bool} (hU : uniqK ctl.fdw_xacts)
    (h : remove_fdw_xact in_redo ctl k = .ok (ctl', r)) :
    uniqK ctl'.fdw_xacts := by
  obtain ⟨l₁, x, l₂, hdec, -, -, hctl, -, -⟩ := remove_fdw_xact_ok h
  unfold uniqK at hU ⊢
  rw [hctl, hdec]
  rw [hdec] at hU
  obtain ⟨m, hperm, hsub⟩ := removeSwap_keys_subperm l₁ l₂ x
  exact hperm.nodup_iff.1 (List.Nodup.sublist hsub hU)

theorem capInv_of_remove_ok {cap : Nat} {in_redo : Bool} {ctl : FdwXactCtlData}
    {k : FdwXactKey} {ctl' : FdwXactCtlData} {r : Bool} (hcap : capInv cap ctl)
    (h : remove_fdw_xact in_redo ctl k = .ok (ctl', r)) :
    capInv cap ctl' := by
  obtain ⟨l₁, x, l₂, hdec, -, -, hctl, hfree, -⟩ := remove_fdw_xact_ok h
  unfold capInv at hcap ⊢
  have hlen : ctl'.fdw_xacts.length = l₁.length + l₂.length := by
    rw [hctl, hdec, (removeSwap_perm l₁ l₂ x).length_eq, List.length_append]
  rw [hdec] at hcap
  simp only [List.length_append, List.length_cons] at hcap
  rw [hlen, hfree]
  omega

/-- C6.  The FXact table never contains two distinct entries with the same
key (dbid, localXid, serverId, userId): `insert_fdw_xact` rejects an
insertion whose key duplicates an existing entry with an error (leaving the
table unchanged, as the error return carries no new state), and both
`insert_fdw_xact` and `remove_fdw_xact` preserve pairwise key uniqueness. -/
theorem fdwxact_key_uniqueness (ctl : FdwXactCtlData)
    (dbid xid serverid userid umid : Nat) (id : String)
    (hU : uniqK ctl.fdw_xacts) :
    ((∃ f ∈ ctl.fdw_xacts, fxactKey f = ⟨dbid, xid, serverid, userid⟩) →
      insert_fdw_xact ctl dbid xid serverid userid umid id = .error .duplicate_entry)
    ∧ (∀ e ctl', insert_fdw_xact ctl dbid xid serverid userid umid id = .ok (e, ctl') →
        uniqK ctl'.fdw_xacts)
    ∧ (∀ in_redo k ctl' r, remove_fdw_xact in_redo ctl k = .ok (ctl', r) →
        uniqK ctl'.fdw_xacts) := by
  refine ⟨?_, fun e ctl' h => uniqK_of_insert_ok hU h,
    fun in_redo k ctl' r h => uniqK_of_remove_ok hU h⟩
  intro ⟨f, hf, hfk⟩
  unfold insert_fdw_xact
  have hany : ctl.fdw_xacts.any
      (fun f => fxactKey f == ⟨dbid, xid, serverid, userid⟩) = true :=
    List.any_eq_true.2 ⟨f, hf, by simpa using hfk⟩
  rw [hany]
  rfl

/-- C7.  An insertion attempted when all configured FXact slots are in use
(and whose key is fresh, so that the duplicate check does not fire first)
fails with the configuration-hint error, leaving the table unchanged; the
number of active entries never exceeds the configured capacity; and both
`insert_fdw_xact` and `remove_fdw_xact` preserve the partition of the slot
pool into the free list and the active array. -/
theorem fdwxact_capacity_bound (cap : Nat) (ctl : FdwXactCtlData)
    (dbid xid serverid userid umid : Nat) (id : String)
    (hcap : capInv cap ctl) :
    ctl.fdw_xacts.length ≤ cap
    ∧ (ctl.numFree = 0 →
        (∀ f ∈ ctl.fdw_xacts, fxactKey f ≠ ⟨dbid, xid, serverid, userid⟩) →
        insert_fdw_xact ctl dbid xid serverid userid umid id = .error .max_prepared_reached)
    ∧ (∀ e ctl', insert_fdw_xact ctl dbid xid serverid userid umid id = .ok (e, ctl') →
        capInv cap ctl' ∧ ctl'.fdw_xacts.length ≤ cap)
    ∧ (∀ in_redo k ctl' r, remove_fdw_xact in_redo ctl k = .ok (ctl', r) →
        capInv cap ctl') := by
  refine ⟨by unfold capInv at hcap; omega, ?_, ?_,
    fun in_redo k ctl' r h => capInv_of_remove_ok hcap h⟩
  · intro hfree hfresh
    unfold insert_fdw_xact
    have hany : ctl.fdw_xacts.any
        (fun f => fxactKey f == ⟨dbid, xid, serverid, userid⟩) = false := by
      simp only [List.any_eq_false]
      intro f hf
      simpa using hfresh f hf
    rw [hany, if_neg (by simp), hfree]
    rfl
  · intro e ctl' h
    have hc := capInv_of_insert_ok hcap h
    exact ⟨hc, by unfold capInv at hc; omega⟩

/-- A concrete one-entry table used by witnesses. -/
def sampleEntry : FdwXactData :=
  { dbid := 1, local_xid := 10, serverid := 2, userid := 3, umid := 4,
    status := .prepared, insert_start_lsn := 5, insert_end_lsn := 6,
    valid := true, held_by := none, ondisk := false, inredo := false,
    fdw_xact_id := "fx_a" }

/-- A concrete table with one active entry and three free slots. -/
def sampleCtl : FdwXactCtlData :=
  { fdw_xacts := [sampleEntry], numFree := 3 }

/-- A concrete full table (no free slots). -/
def fullCtl : FdwXactCtlData :=
  { fdw_xacts := [sampleEntry], numFree := 0 }

/-- Witness for C6: at the concrete table `sampleCtl`, a duplicate-key
insertion is rejected with the duplicate-entry error. -/
theorem fdwxact_key_uniqueness_witness :
    uniqK sampleCtl.fdw_xacts ∧
    insert_fdw_xact sampleCtl 1 10 2 3 9 "dup" = .error .duplicate_entry :=
  ⟨by decide,
   (fdwxact_key_uniqueness sampleCtl 1 10 2 3 9 "dup" (by decide)).1
     ⟨sampleEntry, by decide, by decide⟩⟩

/-- Witness for C7: at the concrete full table `fullCtl`, a fresh-key
insertion fails with the capacity error. -/
theorem fdwxact_capacity_bound_witness :
    capInv 1 fullCtl ∧
    insert_fdw_xact fullCtl 7 77 7 7 7 "fx_b" = .error .max_prepared_reached :=
  ⟨by decide,
   (fdwxact_capacity_bound 1 fullCtl 7 77 7 7 7 "fx_b" (by decide)).2.1
     (by decide) (by decide)⟩

/- ------------------------------------------------------------------ -/
/- Commit-time orchestrator: participants, policies, pre-commit.       -/
/- ------------------------------------------------------------------ -/

/-- `NAMEDATALEN`: the bound that fdwxact.c:550 checks the FDW-supplied
prepare identifier against.  Its definition lives in
src/include/pg_config_manual.h (not part of this source tree); the standard
PostgreSQL value is 64. -/
def NAMEDATALEN : Nat := 64

/-- `FdwXactParticipant` (fdwxact.c:118) plus the behaviour of the FDW
callbacks it carries, which are external code: `is_twophase_ok` is what
`IsTwoPhaseCommitEnabled(serverid)` returns, `has_get_prepareid` tells
whether the optional `GetPrepareId` callback is provided and
`get_prepareid_ret` what it returns (`none` models a NULL return),
`prepare_ok` / `commit_ok` are the results of `PrepareForeignTransaction`
and `CommitForeignTransaction`.  `twophase_commit_enabled` is the cached
field, initialized to `true` by `register_fdw_xact` (fdwxact.c:316). -/
structure FdwXactParticipant where
  serverid : Nat
  userid : Nat
  umid : Nat
  modified : Bool
  twophase_commit_enabled : Bool
  is_twophase_ok : Bool
  has_get_prepareid : Bool
  get_prepareid_ret : Option String
  prepare_ok : Bool
  commit_ok : Bool
deriving DecidableEq, Repr

/-- The GUC parameters the FXM reads. -/
structure FdwXactConfig where
  max_prepared_foreign_xacts : Nat
  max_foreign_xact_resolvers : Nat
  distributed_atomic_commit : DistributedAtomicCommitLevel
deriving DecidableEq, Repr

/-- The two bits of `MyXactFlags` the FXM uses: `XACT_FLAGS_FDWNOPREPARE`
(set by `register_fdw_xact` and `FdwXactAtomicCommitRequired`) and
`XACT_FLAGS_WROTENONTEMPREL` (set by the executor on heap writes). -/
structure XactFlags where
  fdwNoPrepare : Bool
  wroteNonTempRel : Bool
deriving DecidableEq, Repr

/-- `IsAtomicCommitEnabled()` (fdwxact.c:109). -/
def IsAtomicCommitEnabled (cfg : FdwXactConfig) : Bool :=
  decide (0 < cfg.max_prepared_foreign_xacts) &&
    decide (0 < cfg.max_foreign_xact_resolvers)

/-- `IsAtomicCommitRequested()` (fdwxact.c:113). -/
def IsAtomicCommitRequested (cfg : FdwXactConfig) : Bool :=
  IsAtomicCommitEnabled cfg &&
    decide (cfg.distributed_atomic_commit ≠ .disabled)

/-- The FXact key a participant's entry gets in the current transaction. -/
def participantKey (dbid txid : Nat) (p : FdwXactParticipant) : FdwXactKey :=
  ⟨dbid, txid, p.serverid, p.userid⟩

/-- `FdwXactAtomicCommitRequired` (fdwxact.c:877).  Probes every
participant: a capable one gets `twophase_commit_enabled := true` (note the
C loop never assigns `false`); a non-capable modified one sets
`XACT_FLAGS_FDWNOPREPARE`.  Atomic commit is required when data was
modified on two or more servers, counting the local node when it wrote a
non-temporary relation.  Returns the updated participants, the updated
flags and the boolean answer. -/
def FdwXactAtomicCommitRequired (cfg : FdwXactConfig) (flags : XactFlags)
    (parts : List FdwXactParticipant) :
    List FdwXactParticipant × XactFlags × Bool :=
  if !IsAtomicCommitRequested cfg then (parts, flags, false)
  else
    let parts' := parts.map (fun p =>
      if p.is_twophase_ok then { p with twophase_commit_enabled := true } else p)
    let flags' := if parts.any (fun p => !p.is_twophase_ok && p.modified) then
        { flags with fdwNoPrepare := true } else flags
    let nserverswritten := (parts.countP (·.modified)) +
        (if flags.wroteNonTempRel then 1 else 0)
    if nserverswritten ≤ 1 then (parts', flags', false)
    else (parts', flags', true)

/-- Observable actions of the pre-commit path, in program order. -/
inductive FdwXactEvent where
  | one_phase_commit (serverid userid : Nat)
  | insert_entry (k : FdwXactKey)
  | wal_insert_flush (k : FdwXactKey)
  | prepare_call (serverid userid : Nat)
deriving DecidableEq, Repr

/-- Update of the entry with key `k` through its pointer (keys are unique,
so the map touches exactly that entry). -/
def updateEntry (ctl : FdwXactCtlData) (k : FdwXactKey)
    (g : FdwXactData → FdwXactData) : FdwXactCtlData :=
  { ctl with fdw_xacts := ctl.fdw_xacts.map (fun f => if fxactKey f == k then g f else f) }

/-- `generate_fdw_xact_identifier` (fdwxact.c:1847), with the `random()`
component omitted (the model is deterministic); its result is only required
to be a string, never inspected. -/
def generate_fdw_xact_identifier (txid serverid userid : Nat) : String :=
  "fx_" ++ toString txid ++ "_" ++ toString serverid ++ "_" ++ toString userid

/-- `FdwXactInsertFdwXactEntry` (fdwxact.c:651): inserts the entry into the
shared table with status `FDW_XACT_PREPARING` held by this backend, writes
the `XLOG_FDW_XACT_INSERT` record, flushes WAL (under delay-checkpoint),
records the record's LSNs in the entry and finally marks it valid.  `lsn`
is the WAL insert position; the returned position follows the record. -/
def FdwXactInsertFdwXactEntry (dbid backendId : Nat) (ctl : FdwXactCtlData)
    (lsn : Nat) (txid serverid userid umid : Nat) (id : String) :
    Except FdwErr (FdwXactCtlData × Nat × List FdwXactEvent) :=
  match insert_fdw_xact ctl dbid txid serverid userid umid id with
  | .error e => .error e
  | .ok (_, ctl₁) =>
      let k : FdwXactKey := ⟨dbid, txid, serverid, userid⟩
      let ctl₂ := updateEntry ctl₁ k
        (fun f => { f with status := .preparing, held_by := some backendId })
      let ctl₃ := updateEntry ctl₂ k
        (fun f => { f with insert_start_lsn := lsn, insert_end_lsn := lsn + 1,
                           valid := true })
      .ok (ctl₃, lsn + 2, [.insert_entry k, .wal_insert_flush k])

/-- The length check fdwxact.c:548-556 applies to an FDW-supplied prepare
identifier: identifiers longer than `NAMEDATALEN` fail with
ERRCODE_NAME_TOO_LONG. -/
def fdwxact_id_check (id : String) : Except FdwErr String :=
  if NAMEDATALEN < id.length then .error .name_too_long else .ok id

/-- Result of a pre-commit-side operation: the state reached, the events
emitted before returning or failing, and the error raised, if any
(`ereport(ERROR)` aborts the transaction but shared-memory effects already
performed stay). -/
structure FdwXactOpResult where
  ctl : FdwXactCtlData
  lsn : Nat
  events : List FdwXactEvent
  err : Option FdwErr
deriving DecidableEq, Repr

/-- The per-participant loop of `FdwXactPrepareForeignTransactions`
(fdwxact.c:528-621): obtain or generate the prepare identifier, insert and
flush the FXact entry, then call the FDW prepare callback; on success mark
the entry `FDW_XACT_PREPARED` and continue. -/
def prepareLoop (dbid backendId txid : Nat) :
    List FdwXactParticipant → FdwXactCtlData → Nat → List FdwXactEvent →
    FdwXactOpResult
  | [], ctl, lsn, evs => ⟨ctl, lsn, evs, none⟩
  | p :: rest, ctl, lsn, evs =>
    let idOrErr : Except FdwErr String :=
      if p.has_get_prepareid then
        match p.get_prepareid_ret with
        | none => .error .undefined_object
        | some id => fdwxact_id_check id
      else .ok (generate_fdw_xact_identifier txid p.serverid p.userid)
    match idOrErr with
    | .error e => ⟨ctl, lsn, evs, some e⟩
    | .ok id =>
      match FdwXactInsertFdwXactEntry dbid backendId ctl lsn txid p.serverid
          p.userid p.umid id with
      | .error e => ⟨ctl, lsn, evs, some e⟩
      | .ok (ctl₁, lsn₁, evs₁) =>
        let evs' := evs ++ evs₁ ++ [.prepare_call p.serverid p.userid]
        if !p.prepare_ok then ⟨ctl₁, lsn₁, evs', some .prepare_failed⟩
        else
          let ctl₂ := updateEntry ctl₁ (participantKey dbid txid p)
            (fun f => { f with status := .prepared })
          prepareLoop dbid backendId txid rest ctl₂ lsn₁ evs'

/-- `FdwXactPrepareForeignTransactions` (fdwxact.c:500): after the GUC
checks, prepare every participant in order. -/
def FdwXactPrepareForeignTransactions (cfg : FdwXactConfig)
    (dbid backendId txid : Nat) (parts : List FdwXactParticipant)
    (ctl : FdwXactCtlData) (lsn : Nat) : FdwXactOpResult :=
  if parts.isEmpty then ⟨ctl, lsn, [], none⟩
  else if cfg.max_prepared_foreign_xacts = 0 then
    ⟨ctl, lsn, [], some .prepared_xacts_disabled⟩
  else if cfg.max_foreign_xact_resolvers = 0 then
    ⟨ctl, lsn, [], some .resolvers_disabled⟩
  else prepareLoop dbid backendId txid parts ctl lsn []

/-- The `can_commit` classification of the first loop of
`PreCommit_FdwXacts` (fdwxact.c:436-471). -/
def can_commit (need_atomic_commit : Bool) (policy : DistributedAtomicCommitLevel)
    (p : FdwXactParticipant) : Bool :=
  (!need_atomic_commit || !p.modified) ||
    (decide (policy = .prefer) && !p.twophase_commit_enabled)

/-- The first loop of `PreCommit_FdwXacts`: commit one-phase every
participant that may be, collecting the events, the participants that
remain for two-phase commit, and the error if a commit callback fails
(which aborts the loop, keeping the commits already performed). -/
def commitLoopFdw (need_atomic_commit : Bool)
    (policy : DistributedAtomicCommitLevel) :
    List FdwXactParticipant →
    List FdwXactEvent × List FdwXactParticipant × Option FdwErr
  | [] => ([], [], none)
  | p :: rest =>
    if can_commit need_atomic_commit policy p then
      if p.commit_ok then
        let r := commitLoopFdw need_atomic_commit policy rest
        (.one_phase_commit p.serverid p.userid :: r.1, r.2.1, r.2.2)
      else ([], [], some .commit_failed)
    else
      let r := commitLoopFdw need_atomic_commit policy rest
      (r.1, p :: r.2.1, r.2.2)

/-- `PreCommit_FdwXacts` (fdwxact.c:404): decide whether atomic commit is
required, reject under the `required` policy when a modified participant
cannot prepare, one-phase-commit whatever is allowed, collapse to one-phase
when a single participant remains and the local transaction wrote nothing
durable, and prepare the rest. -/
def PreCommit_FdwXacts (cfg : FdwXactConfig) (dbid backendId txid : Nat)
    (flags : XactFlags) (parts : List FdwXactParticipant)
    (ctl : FdwXactCtlData) (lsn : Nat) : FdwXactOpResult :=
  if parts.isEmpty then ⟨ctl, lsn, [], none⟩
  else
    let acr := FdwXactAtomicCommitRequired cfg flags parts
    let parts₁ := acr.1
    let flags₁ := acr.2.1
    let need := acr.2.2
    if need && decide (cfg.distributed_atomic_commit = .required) &&
        flags₁.fdwNoPrepare then
      ⟨ctl, lsn, [], some .feature_not_supported⟩
    else
      let c := commitLoopFdw need cfg.distributed_atomic_commit parts₁
      match c.2.2 with
      | some e => ⟨ctl, lsn, c.1, some e⟩
      | none =>
        match c.2.1 with
        | [p] =>
          if !flags₁.wroteNonTempRel then
            if p.commit_ok then
              ⟨ctl, lsn, c.1 ++ [.one_phase_commit p.serverid p.userid], none⟩
            else ⟨ctl, lsn, c.1, some .commit_failed⟩
          else
            let r := FdwXactPrepareForeignTransactions cfg dbid backendId txid
              [p] ctl lsn
            ⟨r.ctl, r.lsn, c.1 ++ r.events, r.err⟩
        | rem =>
          let r := FdwXactPrepareForeignTransactions cfg dbid backendId txid
            rem ctl lsn
          ⟨r.ctl, r.lsn, c.1 ++ r.events, r.err⟩

/- ------------------------------------------------------------------ -/
/- Resolver: FdwXactResolveForeignTransaction.                         -/
/- ------------------------------------------------------------------ -/

/-- Outcome of the local transaction as the transaction manager reports it
(external collaborator): `TransactionIdDidCommit`, `TransactionIdDidAbort`,
`TransactionIdIsInProgress`; `gone` is the case where none of them holds
(not in progress and no outcome record). -/
inductive LocalXactOutcome where
  | committed
  | aborted
  | in_progress
  | gone
deriving DecidableEq, Repr

/-- The outcome decision of `FdwXactResolveForeignTransaction`
(fdwxact.c:1563-1611): honor an already-determined status; otherwise derive
commit/abort from the local transaction, erroring when it is still in
progress.  Returns the resolution direction and the (possibly updated)
entry status. -/
def fdwxact_resolve_decide (status : FdwXactStatus) (outcome : LocalXactOutcome) :
    Except FdwErr (Bool × FdwXactStatus) :=
  if status = .committing_prepared then .ok (true, status)
  else if status = .aborting_prepared then .ok (false, status)
  else match outcome with
    | .committed => .ok (true, .committing_prepared)
    | .aborted => .ok (false, .aborting_prepared)
    | .gone => .ok (false, status)
    | .in_progress => .error .in_progress_xact

/-- Result of `FdwXactResolveForeignTransaction`: the table reached, the
error raised if any (`ereport` at the caller's `elevel`; shared-memory
changes made before it persist), the FDW callback's return value, whether
the entry was removed and whether its on-disk file was unlinked. -/
structure ResolveResult where
  ctl : FdwXactCtlData
  err : Option FdwErr
  ret : Bool
  removed : Bool
  file_unlinked : Bool
deriving DecidableEq, Repr

/-- `FdwXactResolveForeignTransaction` (fdwxact.c:1551): decide the
resolution direction (writing the decided status into the entry), call the
FDW `ResolveForeignTransaction` callback (its result is `resolve_ok`), and
report failure at the caller's elevel — `elevel_error = true` models
`elevel = ERROR` (the resolver processes), `false` a non-throwing level
such as the `LOG` that `pg_resolve_fdw_xact` passes.  Control then falls
through to the removal code ("Resolution was a success, remove the
entry"), which unlinks the on-disk file if any and frees the entry. -/
def FdwXactResolveForeignTransaction (ctl : FdwXactCtlData) (k : FdwXactKey)
    (outcome : LocalXactOutcome) (resolve_ok : Bool) (elevel_error : Bool) :
    ResolveResult :=
  match get_one_fdw_xact ctl k with
  | none => ⟨ctl, some .entry_not_found, false, false, false⟩
  | some fdwxact =>
    match fdwxact_resolve_decide fdwxact.status outcome with
    | .error e => ⟨ctl, some e, false, false, false⟩
    | .ok (_, status') =>
      let ctl₁ := updateEntry ctl k (fun f => { f with status := status' })
      if !resolve_ok && elevel_error then
        ⟨ctl₁, some .resolve_failed, resolve_ok, false, false⟩
      else
        match remove_fdw_xact false ctl₁ k with
        | .error e => ⟨ctl₁, some e, resolve_ok, false, false⟩
        | .ok (ctl₂, _) => ⟨ctl₂, none, resolve_ok, true, fdwxact.ondisk⟩

/- ------------------------------------------------------------------ -/
/- WAL redo: fdw_xact_redo, FdwXactRedoAdd, FdwXactRedoRemove.         -/
/- ------------------------------------------------------------------ -/

/-- `FdwXactOnDiskData` (fdwxact_xlog.h): the payload of an
`XLOG_FDW_XACT_INSERT` record and of an on-disk state file. -/
structure FdwXactOnDiskData where
  dbid : Nat
  local_xid : Nat
  serverid : Nat
  userid : Nat
  umid : Nat
  fdw_xact_id : String
deriving DecidableEq, Repr

/-- Key of a WAL insert payload. -/
def diskKey (d : FdwXactOnDiskData) : FdwXactKey :=
  ⟨d.dbid, d.local_xid, d.serverid, d.userid⟩

/-- An FXact WAL record: `XLOG_FDW_XACT_INSERT` (with the reader's start
and end LSN) or `XLOG_FDW_XACT_REMOVE` (`xl_fdw_xact_remove`). -/
inductive FdwXactRedoRec where
  | ins (d : FdwXactOnDiskData) (start_lsn end_lsn : Nat)
  | rem (dbid xid serverid userid : Nat)
deriving DecidableEq, Repr

/-- Key a redo record refers to. -/
def recKey : FdwXactRedoRec → FdwXactKey
  | .ins d _ _ => diskKey d
  | .rem dbid xid serverid userid => ⟨dbid, xid, serverid, userid⟩

/-- The entry `FdwXactRedoAdd` builds from a WAL insert payload: status
`FDW_XACT_PREPARING`, not valid yet, `inredo` set, `ondisk` exactly when
the record was read back from a state file (invalid start LSN). -/
def redoEntryOf (d : FdwXactOnDiskData) (start_lsn end_lsn : Nat) : FdwXactData :=
  { dbid := d.dbid, local_xid := d.local_xid, serverid := d.serverid,
    userid := d.userid, umid := d.umid, status := .preparing,
    insert_start_lsn := start_lsn, insert_end_lsn := end_lsn, valid := false,
    held_by := none, ondisk := decide (start_lsn = 0), inredo := true,
    fdw_xact_id := d.fdw_xact_id }

/-- `FdwXactRedoAdd` (fdwxact.c:2378): insert the replayed entry via
`insert_fdw_xact` and fill in the redo fields. -/
def FdwXactRedoAdd (ctl : FdwXactCtlData) (d : FdwXactOnDiskData)
    (start_lsn end_lsn : Nat) : Except FdwErr FdwXactCtlData :=
  match insert_fdw_xact ctl d.dbid d.local_xid d.serverid d.userid d.umid
      d.fdw_xact_id with
  | .error e => .error e
  | .ok (_, ctl₁) =>
    .ok (updateEntry ctl₁ (diskKey d) (fun f =>
      { f with status := .preparing, insert_start_lsn := start_lsn,
               insert_end_lsn := end_lsn, inredo := true, valid := false,
               ondisk := decide (start_lsn = 0) }))

/-- `FdwXactRedoRemove` (fdwxact.c:2419): look the entry up by key; when it
is absent the removal is a no-op, otherwise remove it (during replay no
REMOVE record is emitted; the on-disk file, if any, is also deleted, which
has no footprint in the table state). -/
def FdwXactRedoRemove (ctl : FdwXactCtlData) (k : FdwXactKey) : FdwXactCtlData :=
  match get_one_fdw_xact ctl k with
  | none => ctl
  | some _ =>
    match remove_fdw_xact true ctl k with
    | .error _ => ctl
    | .ok (ctl', _) => ctl'

/-- `fdw_xact_redo` (fdwxact.c:1799): dispatch one WAL record. -/
def fdw_xact_redo (ctl : FdwXactCtlData) : FdwXactRedoRec → Except FdwErr FdwXactCtlData
  | .ins d start_lsn end_lsn => FdwXactRedoAdd ctl d start_lsn end_lsn
  | .rem dbid xid serverid userid =>
      .ok (FdwXactRedoRemove ctl ⟨dbid, xid, serverid, userid⟩)

/-- Replay of a sequence of FXact WAL records; an `ereport(ERROR)` during
replay aborts it (the table keeps the effects already applied, but the
failed record and the rest are not applied). -/
def applyRedoSeq (ctl : FdwXactCtlData) : List FdwXactRedoRec → Except FdwErr FdwXactCtlData
  | [] => .ok ctl
  | r :: w => match fdw_xact_redo ctl r with
    | .error e => .error e
    | .ok ctl' => applyRedoSeq ctl' w

/-- Replay of the same record sequence `n` times in a row. -/
def applyRedoPow (ctl : FdwXactCtlData) (w : List FdwXactRedoRec) :
    Nat → Except FdwErr FdwXactCtlData
  | 0 => .ok ctl
  | n + 1 => match applyRedoPow ctl w n with
    | .error e => .error e
    | .ok ctl' => applyRedoSeq ctl' w

/- ------------------------------------------------------------------ -/
/- Management surface: pg_prepared_fdw_xacts.                          -/
/- ------------------------------------------------------------------ -/

/-- `get_all_fdw_xacts` (fdwxact.c:1710): a snapshot copy of every entry of
the shared array, including ones whose information is not completely
filled yet (the caller filters). -/
def get_all_fdw_xacts (ctl : FdwXactCtlData) : List FdwXactData :=
  ctl.fdw_xacts

/-- Status display of `pg_prepared_fdw_xacts` (fdwxact.c:2582-2596); every
status outside the three listed cases (including `FDW_XACT_PREPARED`)
falls to the `default` branch. -/
def fdw_xact_status_text : FdwXactStatus → String
  | .preparing => "prepared"
  | .committing_prepared => "committing"
  | .aborting_prepared => "aborting"
  | _ => "unknown"

/-- One result row of `pg_prepared_fdw_xacts`. -/
structure FdwXactRow where
  dbid : Nat
  transaction : Nat
  serverid : Nat
  userid : Nat
  status_text : String
  identifier : String
deriving DecidableEq, Repr

/-- The row built from an entry. -/
def rowOfFdwXact (f : FdwXactData) : FdwXactRow :=
  ⟨f.dbid, f.local_xid, f.serverid, f.userid, fdw_xact_status_text f.status,
   f.fdw_xact_id⟩

/-- `pg_prepared_fdw_xacts` (fdwxact.c:2506): take the snapshot from
`get_all_fdw_xacts`, skip every entry whose `valid` flag is false, and
emit one row per remaining entry. -/
def pg_prepared_fdw_xacts (ctl : FdwXactCtlData) : List FdwXactRow :=
  (get_all_fdw_xacts ctl).filterMap
    (fun f => if f.valid then some (rowOfFdwXact f) else none)

/- ------------------------------------------------------------------ -/
/- Claims about the resolver and the management surface.               -/
/- ------------------------------------------------------------------ -/

/-- C2.  When the entry's status is not already CommittingPrepared or
AbortingPrepared, `FdwXactResolveForeignTransaction` chooses the outcome
from the local transaction: a committed local xid yields commit with
status CommittingPrepared, an aborted one abort with AbortingPrepared, a
local xid that is not in progress and has no outcome record is resolved as
abort (status untouched), and an in-progress one raises an error that
leaves the table unchanged. -/
theorem resolver_outcome_decision (ctl : FdwXactCtlData) (k : FdwXactKey)
    (f : FdwXactData) (outcome : LocalXactOutcome) (resolve_ok elevel_error : Bool)
    (hf : get_one_fdw_xact ctl k = some f)
    (h1 : f.status ≠ .committing_prepared) (h2 : f.status ≠ .aborting_prepared) :
    (outcome = .committed →
      fdwxact_resolve_decide f.status outcome = .ok (true, .committing_prepared)) ∧
    (outcome = .aborted →
      fdwxact_resolve_decide f.status outcome = .ok (false, .aborting_prepared)) ∧
    (outcome = .gone →
      fdwxact_resolve_decide f.status outcome = .ok (false, f.status)) ∧
    (outcome = .in_progress →
      fdwxact_resolve_decide f.status outcome = .error .in_progress_xact ∧
      (FdwXactResolveForeignTransaction ctl k outcome resolve_ok elevel_error).err =
        some .in_progress_xact ∧
      (FdwXactResolveForeignTransaction ctl k outcome resolve_ok elevel_error).ctl = ctl) := by
  have hdec : ∀ oc, fdwxact_resolve_decide f.status oc =
      (match oc with
        | .committed => .ok (true, .committing_prepared)
        | .aborted => .ok (false, .aborting_prepared)
        | .gone => .ok (false, f.status)
        | .in_progress => .error .in_progress_xact) := by
    intro oc
    unfold fdwxact_resolve_decide
    rw [if_neg h1, if_neg h2]
  refine ⟨fun h => by rw [h, hdec], fun h => by rw [h, hdec],
    fun h => by rw [h, hdec], fun h => ?_⟩
  subst h
  have hres : FdwXactResolveForeignTransaction ctl k .in_progress resolve_ok
      elevel_error = ⟨ctl, some .in_progress_xact, false, false, false⟩ := by
    unfold FdwXactResolveForeignTransaction
    simp only [hf, hdec]
  exact ⟨hdec _, by rw [hres], by rw [hres]⟩

/-- Entry on disk used in resolver scenarios. -/
def ondiskEntry : FdwXactData :=
  { dbid := 1, local_xid := 10, serverid := 2, userid := 3, umid := 4,
    status := .prepared, insert_start_lsn := 0, insert_end_lsn := 0,
    valid := true, held_by := none, ondisk := true, inredo := false,
    fdw_xact_id := "fx_a" }

/-- Table holding the on-disk entry. -/
def ondiskCtl : FdwXactCtlData :=
  { fdw_xacts := [ondiskEntry], numFree := 3 }

/-- Witness for C2: at the concrete table `ondiskCtl`, the entry has status
Prepared and the committed local transaction yields commit with status
CommittingPrepared. -/
theorem resolver_outcome_decision_witness :
    fdwxact_resolve_decide ondiskEntry.status .committed =
      .ok (true, .committing_prepared) :=
  (resolver_outcome_decision ondiskCtl ⟨1, 10, 2, 3⟩ ondiskEntry .committed
    true true (by decide) (by decide) (by decide)).1 rfl

/-- C8 (code bug).  `FdwXactResolveForeignTransaction` is documented to
remove the entry only on successful resolution ("Resolution was a success,
remove the entry"), but when the FDW resolve callback fails and the caller
passed an elevel below ERROR — as `pg_resolve_fdw_xact` does with LOG —
control falls through to the removal code: the entry is freed and its
on-disk file unlinked although `ret = false`. -/
theorem resolve_failure_still_removes_entry :
    (FdwXactResolveForeignTransaction ondiskCtl ⟨1, 10, 2, 3⟩ .committed
      false false).ret = false ∧
    (FdwXactResolveForeignTransaction ondiskCtl ⟨1, 10, 2, 3⟩ .committed
      false false).err = none ∧
    (FdwXactResolveForeignTransaction ondiskCtl ⟨1, 10, 2, 3⟩ .committed
      false false).removed = true ∧
    (FdwXactResolveForeignTransaction ondiskCtl ⟨1, 10, 2, 3⟩ .committed
      false false).file_unlinked = true ∧
    (FdwXactResolveForeignTransaction ondiskCtl ⟨1, 10, 2, 3⟩ .committed
      false false).ctl.fdw_xacts = [] := by
  decide

theorem filterMap_if_eq_map_filter {α β : Type} (p : α → Bool) (g : α → β) :
    ∀ l : List α, l.filterMap (fun a => if p a then some (g a) else none) =
      (l.filter p).map g := by
  intro l
  induction l with
  | nil => rfl
  | cons a t ih =>
    by_cases hp : p a
    · simp [List.filterMap_cons, List.filter_cons, hp, ih]
    · simp [List.filterMap_cons, List.filter_cons, hp, ih]

/-- C10.  `pg_prepared_fdw_xacts` returns exactly one row per entry whose
valid flag is true in the snapshot taken by `get_all_fdw_xacts`: every row
comes from a valid entry, and when no entry is valid the output is
empty (entries that are mid-insert or replayed but not yet revalidated
never appear). -/
theorem pg_prepared_fdw_xacts_valid_only (ctl : FdwXactCtlData) :
    pg_prepared_fdw_xacts ctl =
      ((get_all_fdw_xacts ctl).filter (fun f => f.valid)).map rowOfFdwXact ∧
    (∀ r ∈ pg_prepared_fdw_xacts ctl,
      ∃ f ∈ get_all_fdw_xacts ctl, f.valid = true ∧ r = rowOfFdwXact f) ∧
    ((∀ f ∈ get_all_fdw_xacts ctl, f.valid = false) →
      pg_prepared_fdw_xacts ctl = []) := by
  have heq : pg_prepared_fdw_xacts ctl =
      ((get_all_fdw_xacts ctl).filter (fun f => f.valid)).map rowOfFdwXact :=
    filterMap_if_eq_map_filter _ _ _
  refine ⟨heq, ?_, ?_⟩
  · intro r hr
    rw [heq] at hr
    obtain ⟨f, hf, hrf⟩ := List.mem_map.1 hr
    have := List.mem_filter.1 hf
    exact ⟨f, this.1, by simpa using this.2, hrf.symm⟩
  · intro hall
    rw [heq]
    have : (get_all_fdw_xacts ctl).filter (fun f => f.valid) = [] := by
      rw [List.filter_eq_nil_iff]
      intro f hf
      simp [hall f hf]
    rw [this]
    rfl

/-- Table with one valid and one invalid entry. -/
def mixedCtl : FdwXactCtlData :=
  { fdw_xacts := [ondiskEntry, { ondiskEntry with local_xid := 11, valid := false }],
    numFree := 2 }

/-- Witness for C10: at the concrete table `mixedCtl` the single output row
comes from the valid entry. -/
theorem pg_prepared_fdw_xacts_valid_only_witness :
    ∃ f ∈ get_all_fdw_xacts mixedCtl, f.valid = true ∧
      rowOfFdwXact ondiskEntry = rowOfFdwXact f :=
  (pg_prepared_fdw_xacts_valid_only mixedCtl).2.1 (rowOfFdwXact ondiskEntry)
    (by decide)

/- ------------------------------------------------------------------ -/
/- Claims about the pre-commit orchestrator.                           -/
/- ------------------------------------------------------------------ -/

/-- C5 (amended).  When the FDW supplies a prepare identifier through
`get_prepare_id`, the Prepare step accepts identifiers of length up to
`NAMEDATALEN` (64) bytes and rejects longer ones with the name-too-long
error before any entry is inserted or WAL emitted.  (The claim's 200-byte
bound is `FDW_XACT_ID_MAX_LEN`, which fdwxact.c:550 does not use.) -/
theorem prepare_id_length_check (id : String) (cfg : FdwXactConfig)
    (dbid backendId txid : Nat) (p : FdwXactParticipant)
    (rest : List FdwXactParticipant) (ctl : FdwXactCtlData) (lsn : Nat)
    (hmp : cfg.max_prepared_foreign_xacts ≠ 0)
    (hmr : cfg.max_foreign_xact_resolvers ≠ 0)
    (hcb : p.has_get_prepareid = true) (hret : p.get_prepareid_ret = some id) :
    (id.length ≤ NAMEDATALEN → fdwxact_id_check id = .ok id) ∧
    (NAMEDATALEN < id.length →
      fdwxact_id_check id = .error .name_too_long ∧
      FdwXactPrepareForeignTransactions cfg dbid backendId txid (p :: rest) ctl
        lsn = ⟨ctl, lsn, [], some .name_too_long⟩) := by
  constructor
  · intro hle
    unfold fdwxact_id_check
    rw [if_neg (Nat.not_lt.2 hle)]
  · intro hgt
    have hchk : fdwxact_id_check id = .error .name_too_long := by
      unfold fdwxact_id_check
      rw [if_pos hgt]
    refine ⟨hchk, ?_⟩
    unfold FdwXactPrepareForeignTransactions
    rw [if_neg (by simp), if_neg hmp, if_neg hmr]
    unfold prepareLoop
    simp only [hcb, hret, hchk, if_pos]

/-- A 65-byte identifier (within the claim's 200-byte bound). -/
def longId : String := String.mk (List.replicate 65 'a')

/-- Participant whose `get_prepare_id` callback supplies `longId`. -/
def pLongId : FdwXactParticipant :=
  { serverid := 2, userid := 3, umid := 4, modified := true,
    twophase_commit_enabled := true, is_twophase_ok := true,
    has_get_prepareid := true, get_prepareid_ret := some longId,
    prepare_ok := true, commit_ok := true }

/-- Configuration with the prefer policy, capacity 8, two resolvers. -/
def cfgPrefer8 : FdwXactConfig := ⟨8, 2, .prefer⟩

/-- Configuration with the required policy, capacity 8, two resolvers. -/
def cfgRequired8 : FdwXactConfig := ⟨8, 2, .required⟩

/-- An empty table with eight free slots. -/
def emptyCtl8 : FdwXactCtlData := ⟨[], 8⟩

/-- Counterexample for C5: a 65-byte identifier — within the claimed
200-byte bound — is rejected by the Prepare step with the name-too-long
error instead of being accepted. -/
theorem prepare_id_within_200_rejected :
    longId.length ≤ 200 ∧
    FdwXactPrepareForeignTransactions cfgPrefer8 1 1 100 [pLongId] emptyCtl8 10 =
      ⟨emptyCtl8, 10, [], some .name_too_long⟩ := by
  constructor
  · decide
  · decide

/-- Witness for C5 (amended): a 64-byte identifier passes the check and a
65-byte one fails it. -/
theorem prepare_id_length_check_witness :
    fdwxact_id_check (String.mk (List.replicate 64 'a')) =
      .ok (String.mk (List.replicate 64 'a')) ∧
    fdwxact_id_check longId = .error .name_too_long ∧
    FdwXactPrepareForeignTransactions cfgPrefer8 1 1 100 [pLongId] emptyCtl8 10 =
      ⟨emptyCtl8, 10, [], some .name_too_long⟩ :=
  ⟨(prepare_id_length_check (String.mk (List.replicate 64 'a')) cfgPrefer8 1 1
      100 { pLongId with get_prepareid_ret := some (String.mk (List.replicate 64 'a')) }
      [] emptyCtl8 10 (by decide) (by decide) (by decide) rfl).1 (by decide),
   ((prepare_id_length_check longId cfgPrefer8 1 1 100 pLongId [] emptyCtl8 10
      (by decide) (by decide) (by decide) rfl).2 (by decide)).1,
   ((prepare_id_length_check longId cfgPrefer8 1 1 100 pLongId [] emptyCtl8 10
      (by decide) (by decide) (by decide) rfl).2 (by decide)).2⟩

/-- C3 (amended).  Under the `required` policy, when atomic commit is
required — data was modified on two or more servers, counting the local
node when it wrote a non-temporary relation — and some modified
participant is not two-phase capable, `PreCommit_FdwXacts` fails with the
feature-not-supported error before emitting any event and before touching
the FXact table.  (Without the atomic-commit-required premise the check is
skipped; see the counterexample.) -/
theorem pre_commit_required_rejects (cfg : FdwXactConfig)
    (dbid backendId txid : Nat) (flags : XactFlags)
    (parts : List FdwXactParticipant) (ctl : FdwXactCtlData) (lsn : Nat)
    (hpol : cfg.distributed_atomic_commit = .required)
    (hmp : 0 < cfg.max_prepared_foreign_xacts)
    (hmr : 0 < cfg.max_foreign_xact_resolvers)
    (hnc : ∃ p ∈ parts, p.modified = true ∧ p.is_twophase_ok = false)
    (hn : 2 ≤ parts.countP (·.modified) +
        (if flags.wroteNonTempRel then 1 else 0)) :
    PreCommit_FdwXacts cfg dbid backendId txid flags parts ctl lsn =
      ⟨ctl, lsn, [], some .feature_not_supported⟩ := by
  obtain ⟨p₀, hp₀, hmod, hcap⟩ := hnc
  have hreq : IsAtomicCommitRequested cfg = true := by
    simp only [IsAtomicCommitRequested, IsAtomicCommitEnabled, Bool.and_eq_true,
      decide_eq_true_eq]
    exact ⟨⟨hmp, hmr⟩, by rw [hpol]; decide⟩
  have hany : parts.any (fun p => !p.is_twophase_ok && p.modified) = true :=
    List.any_eq_true.2 ⟨p₀, hp₀, by rw [hmod, hcap]; rfl⟩
  have hnle : ¬(parts.countP (·.modified) +
      (if flags.wroteNonTempRel then 1 else 0) ≤ 1) := by omega
  have hacr : FdwXactAtomicCommitRequired cfg flags parts =
      (parts.map (fun p => if p.is_twophase_ok then
          { p with twophase_commit_enabled := true } else p),
       { flags with fdwNoPrepare := true }, true) := by
    unfold FdwXactAtomicCommitRequired
    rw [hreq, hany]
    simp only [Bool.not_true, Bool.false_eq_true, if_false, if_true]
    rw [if_neg hnle]
  have hne : parts.isEmpty = false := by
    cases parts with
    | nil => cases hp₀
    | cons a t => rfl
  unfold PreCommit_FdwXacts
  rw [hne, hacr]
  simp [hpol]

/-- Modified participant whose capability probe answers false. -/
def pNonCap : FdwXactParticipant :=
  { serverid := 5, userid := 6, umid := 7, modified := true,
    twophase_commit_enabled := true, is_twophase_ok := false,
    has_get_prepareid := false, get_prepareid_ret := none,
    prepare_ok := true, commit_ok := true }

/-- Modified participant whose capability probe answers true. -/
def pCap : FdwXactParticipant :=
  { serverid := 2, userid := 3, umid := 4, modified := true,
    twophase_commit_enabled := true, is_twophase_ok := true,
    has_get_prepareid := false, get_prepareid_ret := none,
    prepare_ok := true, commit_ok := true }

/-- Counterexample for C3: with the `required` policy and a single modified
non-capable participant (and no durable local write), the pre-commit step
does not fail — atomic commit is not required, so the participant is
simply committed one-phase. -/
theorem pre_commit_required_single_noncapable_commits :
    pNonCap.modified = true ∧ pNonCap.is_twophase_ok = false ∧
    PreCommit_FdwXacts cfgRequired8 1 1 100 ⟨false, false⟩ [pNonCap] emptyCtl8
      10 = ⟨emptyCtl8, 10, [.one_phase_commit 5 6], none⟩ := by
  refine ⟨rfl, rfl, ?_⟩
  decide

/-- Witness for C3 (amended): with the `required` policy and two modified
participants, one non-capable, pre-commit fails with feature-not-supported
and leaves no trace. -/
theorem pre_commit_required_rejects_witness :
    PreCommit_FdwXacts cfgRequired8 1 1 100 ⟨false, false⟩ [pCap, pNonCap]
      emptyCtl8 10 = ⟨emptyCtl8, 10, [], some .feature_not_supported⟩ :=
  pre_commit_required_rejects cfgRequired8 1 1 100 ⟨false, false⟩
    [pCap, pNonCap] emptyCtl8 10 rfl (by decide) (by decide)
    ⟨pNonCap, by decide, rfl, rfl⟩ (by decide)

/-- C4 (code bug).  Under the `prefer` policy the first pre-commit loop is
supposed to commit non-2PC-capable participants one-phase
(fdwxact.c:451-456), but `twophase_commit_enabled` is initialized to true
by `register_fdw_xact` (fdwxact.c:316, "will be changed at pre-commit
phase") and `FdwXactAtomicCommitRequired` only ever assigns true to it
(fdwxact.c:892), so the branch is dead: a modified participant whose
capability probe answered false is kept and two-phase prepared — the
prepare callback is invoked on the non-capable server and no one-phase
commit happens for it. -/
theorem pre_commit_prefer_noncapable_is_prepared :
    pNonCap.modified = true ∧ pNonCap.is_twophase_ok = false ∧
    (PreCommit_FdwXacts cfgPrefer8 1 1 100 ⟨false, false⟩ [pCap, pNonCap]
      emptyCtl8 10).err = none ∧
    FdwXactEvent.prepare_call 5 6 ∈
      (PreCommit_FdwXacts cfgPrefer8 1 1 100 ⟨false, false⟩ [pCap, pNonCap]
        emptyCtl8 10).events ∧
    FdwXactEvent.one_phase_commit 5 6 ∉
      (PreCommit_FdwXacts cfgPrefer8 1 1 100 ⟨false, false⟩ [pCap, pNonCap]
        emptyCtl8 10).events := by
  refine ⟨rfl, rfl, ?_, ?_, ?_⟩ <;> decide

/- ------------------------------------------------------------------ -/
/- C1: durable entry before prepare, kept until successful resolution. -/
/- ------------------------------------------------------------------ -/

theorem updateEntry_keyList (ctl : FdwXactCtlData) (k : FdwXactKey)
    (g : FdwXactData → FdwXactData) (hg : ∀ f, fxactKey (g f) = fxactKey f) :
    keyList (updateEntry ctl k g).fdw_xacts = keyList ctl.fdw_xacts := by
  unfold updateEntry keyList
  rw [List.map_map]
  apply List.map_congr_left
  intro f _
  dsimp only [Function.comp]
  split
  · exact hg _
  · rfl

theorem FdwXactInsertFdwXactEntry_ok {dbid backendId : Nat} {ctl : FdwXactCtlData}
    {lsn txid serverid userid umid : Nat} {id : String} {ctl' : FdwXactCtlData}
    {lsn' : Nat} {evs : List FdwXactEvent}
    (h : FdwXactInsertFdwXactEntry dbid backendId ctl lsn txid serverid userid
      umid id = .ok (ctl', lsn', evs)) :
    evs = [.insert_entry ⟨dbid, txid, serverid, userid⟩,
           .wal_insert_flush ⟨dbid, txid, serverid, userid⟩] ∧
    keyList ctl'.fdw_xacts =
      keyList ctl.fdw_xacts ++ [⟨dbid, txid, serverid, userid⟩] := by
  unfold FdwXactInsertFdwXactEntry at h
  cases hins : insert_fdw_xact ctl dbid txid serverid userid umid id with
  | error e => rw [hins] at h; exact absurd h (by simp)
  | ok pair =>
    obtain ⟨e, ctl₁⟩ := pair
    rw [hins] at h
    simp only [Except.ok.injEq, Prod.mk.injEq] at h
    obtain ⟨hctl', -, hevs⟩ := h
    obtain ⟨-, -, hkey, hctl₁, -⟩ := insert_fdw_xact_ok hins
    refine ⟨hevs.symm, ?_⟩
    rw [← hctl', updateEntry_keyList, updateEntry_keyList, hctl₁, keyList_append]
    · simp [keyList, hkey]
    · exact fun f => rfl
    · exact fun f => rfl

/-- The trace of one prepared participant: FXact INSERT, WAL flush, then
the FDW prepare call. -/
def prepareBlock (dbid txid : Nat) (su : Nat × Nat) : List FdwXactEvent :=
  [.insert_entry ⟨dbid, txid, su.1, su.2⟩,
   .wal_insert_flush ⟨dbid, txid, su.1, su.2⟩,
   .prepare_call su.1 su.2]

/-- Concatenation of participant traces. -/
def blocksFlat (dbid txid : Nat) : List (Nat × Nat) → List FdwXactEvent
  | [] => []
  | su :: bs => prepareBlock dbid txid su ++ blocksFlat dbid txid bs

theorem prepareLoop_events_blocks (dbid backendId txid : Nat) :
    ∀ (parts : List FdwXactParticipant) (ctl : FdwXactCtlData) (lsn : Nat)
      (evs : List FdwXactEvent),
      ∃ bs, (prepareLoop dbid backendId txid parts ctl lsn evs).events =
        evs ++ blocksFlat dbid txid bs := by
  intro parts
  induction parts with
  | nil =>
    intro ctl lsn evs
    exact ⟨[], by simp [prepareLoop, blocksFlat]⟩
  | cons p rest ih =>
    intro ctl lsn evs
    unfold prepareLoop
    cases hid : (if p.has_get_prepareid then
        match p.get_prepareid_ret with
        | none => .error .undefined_object
        | some id => fdwxact_id_check id
      else .ok (generate_fdw_xact_identifier txid p.serverid p.userid) :
        Except FdwErr String) with
    | error e =>
      exact ⟨[], by simp only [hid, blocksFlat, List.append_nil]⟩
    | ok id =>
      cases hins : FdwXactInsertFdwXactEntry dbid backendId ctl lsn txid
          p.serverid p.userid p.umid id with
      | error e =>
        exact ⟨[], by simp only [hid, hins, blocksFlat, List.append_nil]⟩
      | ok trip =>
        obtain ⟨ctl₁, lsn₁, evs₁⟩ := trip
        have hevs := (FdwXactInsertFdwXactEntry_ok hins).1
        by_cases hprep : p.prepare_ok = true
        · obtain ⟨bs, hbs⟩ := ih
            (updateEntry ctl₁ (participantKey dbid txid p)
              (fun f => { f with status := .prepared })) lsn₁
            (evs ++ evs₁ ++ [.prepare_call p.serverid p.userid])
          refine ⟨(p.serverid, p.userid) :: bs, ?_⟩
          rw [hevs] at hbs
          simp only [hid, hins, hprep, Bool.not_true, Bool.false_eq_true,
            if_false, blocksFlat, prepareBlock]
          simp only [hevs, List.append_assoc, List.cons_append, List.nil_append]
            at hbs ⊢
          exact hbs
        · refine ⟨[(p.serverid, p.userid)], ?_⟩
          have hprep' : (!p.prepare_ok) = true := by
            simp [Bool.eq_false_iff.2 hprep]
          simp only [hid, hins, hprep', if_true, hevs, blocksFlat, prepareBlock,
            List.append_assoc, List.cons_append, List.nil_append, List.append_nil]

theorem blocksFlat_order (dbid txid : Nat) :
    ∀ (bs : List (Nat × Nat)) (l₁ : List FdwXactEvent) (sid uid : Nat)
      (l₂ : List FdwXactEvent),
      blocksFlat dbid txid bs = l₁ ++ .prepare_call sid uid :: l₂ →
      .insert_entry ⟨dbid, txid, sid, uid⟩ ∈ l₁ ∧
      .wal_insert_flush ⟨dbid, txid, sid, uid⟩ ∈ l₁ := by
  intro bs
  induction bs with
  | nil =>
    intro l₁ sid uid l₂ h
    exact absurd h (by cases l₁ <;> simp [blocksFlat])
  | cons su bs ih =>
    intro l₁ sid uid l₂ h
    simp only [blocksFlat, prepareBlock, List.cons_append, List.nil_append] at h
    cases l₁ with
    | nil => exact absurd h (by simp)
    | cons a l₁ =>
      cases l₁ with
      | nil => exact absurd h (by simp)
      | cons b l₁ =>
        cases l₁ with
        | nil =>
          simp only [List.cons_append, List.nil_append, List.cons.injEq] at h
          obtain ⟨ha, hb, hpc, -⟩ := h
          obtain ⟨hsid, huid⟩ : su.1 = sid ∧ su.2 = uid := by
            cases hpc; exact ⟨rfl, rfl⟩
          subst hsid; subst huid
          exact ⟨by simp [← ha], by simp [← hb]⟩
        | cons c l₁ =>
          simp only [List.cons_append, List.cons.injEq] at h
          obtain ⟨ha, hb, hc, hrest⟩ := h
          have hmem := ih l₁ sid uid l₂ hrest
          exact ⟨by simp [hmem.1], by simp [hmem.2]⟩

theorem resolve_err_keys (ctl : FdwXactCtlData) (k : FdwXactKey)
    (outcome : LocalXactOutcome) (resolve_ok elevel_error : Bool)
    (hne : (FdwXactResolveForeignTransaction ctl k outcome resolve_ok
      elevel_error).err ≠ none) :
    keyList (FdwXactResolveForeignTransaction ctl k outcome resolve_ok
      elevel_error).ctl.fdw_xacts = keyList ctl.fdw_xacts := by
  unfold FdwXactResolveForeignTransaction at hne ⊢
  cases hg : get_one_fdw_xact ctl k with
  | none => simp only [hg]
  | some f =>
    simp only [hg] at hne ⊢
    cases hd : fdwxact_resolve_decide f.status outcome with
    | error e => simp only [hd]
    | ok pr =>
      obtain ⟨is_commit, status'⟩ := pr
      simp only [hd] at hne ⊢
      by_cases hb : (!resolve_ok && elevel_error) = true
      · simp only [hb, if_true]
        exact updateEntry_keyList _ _ _ (fun f => rfl)
      · simp only [hb, Bool.false_eq_true, if_false] at hne ⊢
        cases hr : remove_fdw_xact false
            (updateEntry ctl k (fun f => { f with status := status' })) k with
        | error e =>
          simp only [hr]
          exact updateEntry_keyList _ _ _ (fun f => rfl)
        | ok pr₂ =>
          rw [hr] at hne
          exact absurd rfl hne

theorem resolve_none_keys (ctl : FdwXactCtlData) (k : FdwXactKey)
    (outcome : LocalXactOutcome) (resolve_ok elevel_error : Bool)
    (hok : (FdwXactResolveForeignTransaction ctl k outcome resolve_ok
      elevel_error).err = none) :
    ∀ k' ∈ keyList ctl.fdw_xacts, k' ≠ k →
      k' ∈ keyList (FdwXactResolveForeignTransaction ctl k outcome resolve_ok
        elevel_error).ctl.fdw_xacts := by
  intro k' hk' hne
  unfold FdwXactResolveForeignTransaction at hok ⊢
  cases hg : get_one_fdw_xact ctl k with
  | none => simp only [hg] at hok; exact absurd hok (by simp)
  | some f =>
    simp only [hg] at hok ⊢
    cases hd : fdwxact_resolve_decide f.status outcome with
    | error e => rw [hd] at hok; exact absurd hok (by simp)
    | ok pr =>
      obtain ⟨is_commit, status'⟩ := pr
      simp only [hd] at hok ⊢
      by_cases hb : (!resolve_ok && elevel_error) = true
      · rw [if_pos hb] at hok; exact absurd hok (by simp)
      · simp only [hb, Bool.false_eq_true, if_false] at hok ⊢
        cases hr : remove_fdw_xact false
            (updateEntry ctl k (fun f => { f with status := status' })) k with
        | error e => rw [hr] at hok; exact absurd hok (by simp)
        | ok pr₂ =>
          obtain ⟨ctl₂, emitted⟩ := pr₂
          simp only [hr]
          obtain ⟨l₁, x, l₂, hdec, hx, -, hctl₂, -, -⟩ := remove_fdw_xact_ok hr
          have hupd : keyList (updateEntry ctl k
              (fun f => { f with status := status' })).fdw_xacts =
              keyList ctl.fdw_xacts := updateEntry_keyList _ _ _ (fun f => rfl)
          have hk'' : k' ∈ keyList (l₁ ++ x :: l₂) := by
            rw [← hdec, hupd]; exact hk'
          have hksplit : k' ∈ keyList l₁ ++ keyList l₂ := by
            rw [keyList_append] at hk''
            rcases List.mem_append.1 hk'' with h | h
            · exact List.mem_append_left _ h
            · rw [show keyList (x :: l₂) = fxactKey x :: keyList l₂ from rfl] at h
              rcases List.mem_cons.1 h with h' | h'
              · exact absurd h' (by rw [hx]; exact hne)
              · exact List.mem_append_right _ h'
          rw [hctl₂, hdec]
          have hperm := (removeSwap_perm l₁ l₂ x).map fxactKey
          rw [show (l₁ ++ l₂).map fxactKey = keyList l₁ ++ keyList l₂ by
            simp [keyList]] at hperm
          exact hperm.mem_iff.2 hksplit

/-- System state for the durability argument: the shared table, the WAL
position, the keys for which the orchestrator observed the FDW prepare
callback return true, and the keys whose resolution the Resolver completed
successfully. -/
structure FxmSysState where
  ctl : FdwXactCtlData
  lsn : Nat
  prepared_true : List FdwXactKey
  resolved : List FdwXactKey

/-- Steps of the commit/resolve protocol, each defined by the corresponding
embedded operation: a participant is prepared (the orchestrator inserts
and flushes the entry via `FdwXactInsertFdwXactEntry`, then observes the
prepare callback return true — or not, in which case nothing is recorded
as prepared); `FdwXactWaitToBeResolved` turns Prepared entries into
CommittingPrepared/AbortingPrepared; the Resolver resolves an entry with
`elevel = ERROR`, successfully (recording the resolution) or not. -/
inductive FxmStep (dbid : Nat) : FxmSysState → FxmSysState → Prop where
  | prepare_observed (s : FxmSysState)
      (backendId txid serverid userid umid : Nat) (id : String)
      (ctl' : FdwXactCtlData) (lsn' : Nat) (evs : List FdwXactEvent)
      (hins : FdwXactInsertFdwXactEntry dbid backendId s.ctl s.lsn txid
        serverid userid umid id = .ok (ctl', lsn', evs)) :
      FxmStep dbid s
        ⟨updateEntry ctl' ⟨dbid, txid, serverid, userid⟩
            (fun f => { f with status := .prepared }), lsn',
          ⟨dbid, txid, serverid, userid⟩ :: s.prepared_true, s.resolved⟩
  | prepare_not_observed (s : FxmSysState)
      (backendId txid serverid userid umid : Nat) (id : String)
      (ctl' : FdwXactCtlData) (lsn' : Nat) (evs : List FdwXactEvent)
      (hins : FdwXactInsertFdwXactEntry dbid backendId s.ctl s.lsn txid
        serverid userid umid id = .ok (ctl', lsn', evs)) :
      FxmStep dbid s ⟨ctl', lsn', s.prepared_true, s.resolved⟩
  | wait_status_update (s : FxmSysState) (k : FdwXactKey) (is_commit : Bool) :
      FxmStep dbid s
        ⟨updateEntry s.ctl k (fun f =>
            if f.status == .prepared then
              { f with status := if is_commit then .committing_prepared
                                 else .aborting_prepared }
            else f), s.lsn, s.prepared_true, s.resolved⟩
  | resolve_success (s : FxmSysState) (k : FdwXactKey)
      (outcome : LocalXactOutcome)
      (hok : (FdwXactResolveForeignTransaction s.ctl k outcome true true).err
        = none) :
      FxmStep dbid s
        ⟨(FdwXactResolveForeignTransaction s.ctl k outcome true true).ctl,
          s.lsn, s.prepared_true, k :: s.resolved⟩
  | resolve_failure (s : FxmSysState) (k : FdwXactKey)
      (outcome : LocalXactOutcome) (resolve_ok : Bool)
      (hfail : (FdwXactResolveForeignTransaction s.ctl k outcome resolve_ok
        true).err ≠ none) :
      FxmStep dbid s
        ⟨(FdwXactResolveForeignTransaction s.ctl k outcome resolve_ok true).ctl,
          s.lsn, s.prepared_true, s.resolved⟩

/-- The durability invariant: every key whose prepare was observed true and
that the Resolver has not yet successfully resolved has an entry in the
shared table. -/
def FxmInv (s : FxmSysState) : Prop :=
  ∀ k ∈ s.prepared_true, k ∉ s.resolved → k ∈ keyList s.ctl.fdw_xacts

theorem fxm_step_inv {dbid : Nat} {s s' : FxmSysState}
    (h : FxmStep dbid s s') (hinv : FxmInv s) : FxmInv s' := by
  cases h with
  | prepare_observed backendId txid serverid userid umid id ctl' lsn' evs hins =>
    intro k hk hnr
    have hkeys := (FdwXactInsertFdwXactEntry_ok hins).2
    rw [show keyList (updateEntry ctl' ⟨dbid, txid, serverid, userid⟩
        (fun f => { f with status := .prepared })).fdw_xacts =
        keyList ctl'.fdw_xacts from updateEntry_keyList _ _ _ (fun f => rfl),
      hkeys]
    rcases List.mem_cons.1 hk with rfl | hk'
    · exact List.mem_append_right _ (by simp)
    · exact List.mem_append_left _ (hinv k hk' hnr)
  | prepare_not_observed backendId txid serverid userid umid id ctl' lsn' evs hins =>
    intro k hk hnr
    rw [(FdwXactInsertFdwXactEntry_ok hins).2]
    exact List.mem_append_left _ (hinv k hk hnr)
  | wait_status_update k₀ is_commit =>
    intro k hk hnr
    rw [updateEntry_keyList]
    · exact hinv k hk hnr
    · intro f
      dsimp only
      split <;> rfl
  | resolve_success k₀ outcome hok =>
    intro k hk hnr
    have hkne : k ≠ k₀ := fun he => hnr (he ▸ List.mem_cons_self k₀ s.resolved)
    have hkr : k ∉ s.resolved := fun hh => hnr (List.mem_cons_of_mem _ hh)
    exact resolve_none_keys s.ctl k₀ outcome true true hok k
      (hinv k hk hkr) hkne
  | resolve_failure k₀ outcome resolve_ok hfail =>
    intro k hk hnr
    rw [resolve_err_keys s.ctl k₀ outcome resolve_ok true hfail]
    exact hinv k hk hnr

/-- C1.  (a) In the trace of `FdwXactPrepareForeignTransactions`, every FDW
prepare call on a participant is preceded by the insertion of that
participant's FXact entry and the flush of its WAL INSERT record; (b) along
any run of the commit/resolve protocol, every participant whose prepare
callback was observed to return true keeps an FXact entry in the shared
table until the Resolver records its successful resolution. -/
theorem fdwxact_durability_before_prepare_until_resolved :
    (∀ (cfg : FdwXactConfig) (dbid backendId txid : Nat)
        (parts : List FdwXactParticipant) (ctl : FdwXactCtlData) (lsn : Nat)
        (l₁ : List FdwXactEvent) (sid uid : Nat) (l₂ : List FdwXactEvent),
      (FdwXactPrepareForeignTransactions cfg dbid backendId txid parts ctl
          lsn).events = l₁ ++ .prepare_call sid uid :: l₂ →
      .insert_entry ⟨dbid, txid, sid, uid⟩ ∈ l₁ ∧
        .wal_insert_flush ⟨dbid, txid, sid, uid⟩ ∈ l₁) ∧
    (∀ (dbid : Nat) (s s' : FxmSysState),
      Relation.ReflTransGen (FxmStep dbid) s s' → FxmInv s → FxmInv s') := by
  constructor
  · intro cfg dbid backendId txid parts ctl lsn l₁ sid uid l₂ h
    unfold FdwXactPrepareForeignTransactions at h
    by_cases h₁ : parts.isEmpty
    · rw [if_pos h₁] at h
      exact absurd h (by cases l₁ <;> simp)
    · rw [if_neg h₁] at h
      by_cases h₂ : cfg.max_prepared_foreign_xacts = 0
      · rw [if_pos h₂] at h
        exact absurd h (by cases l₁ <;> simp)
      · rw [if_neg h₂] at h
        by_cases h₃ : cfg.max_foreign_xact_resolvers = 0
        · rw [if_pos h₃] at h
          exact absurd h (by cases l₁ <;> simp)
        · rw [if_neg h₃] at h
          obtain ⟨bs, hbs⟩ := prepareLoop_events_blocks dbid backendId txid
            parts ctl lsn []
          rw [hbs, List.nil_append] at h
          exact blocksFlat_order dbid txid bs l₁ sid uid l₂ h
  · intro dbid s s' h hinv
    induction h with
    | refl => exact hinv
    | tail hab hbc ih => exact fxm_step_inv hbc ih

/-- Witness for C1: at a concrete one-participant input, the trace is
exactly insert, flush, prepare — and the theorem places the insert and
flush before the prepare call. -/
theorem fdwxact_durability_witness :
    FdwXactEvent.insert_entry ⟨1, 100, 2, 3⟩ ∈
      [FdwXactEvent.insert_entry ⟨1, 100, 2, 3⟩,
       FdwXactEvent.wal_insert_flush ⟨1, 100, 2, 3⟩] ∧
    FdwXactEvent.wal_insert_flush ⟨1, 100, 2, 3⟩ ∈
      [FdwXactEvent.insert_entry ⟨1, 100, 2, 3⟩,
       FdwXactEvent.wal_insert_flush ⟨1, 100, 2, 3⟩] :=
  fdwxact_durability_before_prepare_until_resolved.1 cfgPrefer8 1 1 100 [pCap]
    emptyCtl8 10
    [FdwXactEvent.insert_entry ⟨1, 100, 2, 3⟩,
     FdwXactEvent.wal_insert_flush ⟨1, 100, 2, 3⟩] 2 3 [] (by decide)

/- ------------------------------------------------------------------ -/
/- C9: redo replay.                                                    -/
/- ------------------------------------------------------------------ -/

/-- Does the record remove the given key? -/
def isRemoveOf (k : FdwXactKey) : FdwXactRedoRec → Bool
  | .rem dbid xid serverid userid => (⟨dbid, xid, serverid, userid⟩ : FdwXactKey) == k
  | _ => false

/-- Every INSERT record of the sequence is followed by a later REMOVE
record with the same key. -/
def matchedRemoves : List FdwXactRedoRec → Bool
  | [] => true
  | .ins d _ _ :: w => w.any (isRemoveOf (diskKey d)) && matchedRemoves w
  | .rem _ _ _ _ :: w => matchedRemoves w

/-- Keys mentioned by the records of a sequence. -/
def recKeys (w : List FdwXactRedoRec) : List FdwXactKey :=
  w.map recKey

theorem fxactKey_redoEntryOf (d : FdwXactOnDiskData) (s e : Nat) :
    fxactKey (redoEntryOf d s e) = diskKey d := rfl

theorem updateEntry_append_last (l : List FdwXactData) (e : FdwXactData)
    (n : Nat) (k : FdwXactKey) (g : FdwXactData → FdwXactData)
    (hl : ∀ f ∈ l, fxactKey f ≠ k) (he : fxactKey e = k) :
    updateEntry ⟨l ++ [e], n⟩ k g = ⟨l ++ [g e], n⟩ := by
  unfold updateEntry
  simp only [FdwXactCtlData.mk.injEq, and_true]
  rw [List.map_append]
  congr 1
  · calc l.map (fun f => if fxactKey f == k then g f else f)
        = l.map id := List.map_congr_left (fun f hf => by simp [hl f hf])
      _ = l := List.map_id l
  · simp [he]

theorem FdwXactRedoAdd_eq (ctl : FdwXactCtlData) (d : FdwXactOnDiskData)
    (slsn elsn : Nat) :
    FdwXactRedoAdd ctl d slsn elsn =
      if ∃ f ∈ ctl.fdw_xacts, fxactKey f = diskKey d then
        .error .duplicate_entry
      else if ctl.numFree = 0 then .error .max_prepared_reached
      else .ok ⟨ctl.fdw_xacts ++ [redoEntryOf d slsn elsn], ctl.numFree - 1⟩ := by
  unfold FdwXactRedoAdd insert_fdw_xact
  by_cases hdup : ∃ f ∈ ctl.fdw_xacts, fxactKey f = diskKey d
  · have hany : ctl.fdw_xacts.any (fun f =>
        fxactKey f == ⟨d.dbid, d.local_xid, d.serverid, d.userid⟩) = true := by
      obtain ⟨f, hf, hk⟩ := hdup
      exact List.any_eq_true.2 ⟨f, hf, by simpa using hk⟩
    rw [if_pos hdup]
    simp only [hany, reduceIte]
  · have hany : ctl.fdw_xacts.any (fun f =>
        fxactKey f == ⟨d.dbid, d.local_xid, d.serverid, d.userid⟩) = false := by
      rw [List.any_eq_false]
      intro f hf
      simpa using fun hk => hdup ⟨f, hf, hk⟩
    rw [if_neg hdup]
    by_cases hfree : ctl.numFree = 0
    · rw [if_pos hfree]
      simp [hany, hfree]
    · rw [if_neg hfree]
      simp only [hany, reduceIte]
      rw [if_neg hfree]
      exact (congrArg Except.ok
        ((updateEntry_append_last ctl.fdw_xacts
          { dbid := d.dbid, local_xid := d.local_xid, serverid := d.serverid,
            userid := d.userid, umid := d.umid, status := .initial,
            insert_start_lsn := 0, insert_end_lsn := 0, valid := false,
            held_by := none, ondisk := false, inredo := false,
            fdw_xact_id := d.fdw_xact_id }
          (ctl.numFree - 1) (diskKey d) _
          (fun f hf hk => hdup ⟨f, hf, hk⟩) rfl).trans rfl))

theorem scanIdx_first (k : FdwXactKey) :
    ∀ (l₁ : List FdwXactData) (x : FdwXactData) (l₂ : List FdwXactData),
      (∀ f ∈ l₁, fxactKey f ≠ k) → fxactKey x = k →
      scanIdx k (l₁ ++ x :: l₂) = some l₁.length := by
  intro l₁
  induction l₁ with
  | nil =>
    intro x l₂ hl hx
    simp [scanIdx, hx]
  | cons f t ih =>
    intro x l₂ hl hx
    have hf : (fxactKey f == k) = false := by
      simpa using hl f (by simp)
    simp only [List.cons_append, scanIdx, hf, Bool.false_eq_true, reduceIte]
    rw [show t.append (x :: l₂) = t ++ x :: l₂ from rfl,
       ih x l₂ (fun y hy => hl y (by simp [hy])) hx]
    rfl

theorem first_key_decomp (k : FdwXactKey) :
    ∀ l : List FdwXactData, k ∈ keyList l →
      ∃ l₁ x l₂, l = l₁ ++ x :: l₂ ∧ fxactKey x = k ∧
        ∀ y ∈ l₁, fxactKey y ≠ k := by
  intro l
  induction l with
  | nil => intro h; simp [keyList] at h
  | cons f t ih =>
    intro h
    by_cases hf : fxactKey f = k
    · exact ⟨[], f, t, by simp, hf, by simp⟩
    · have ht : k ∈ keyList t := by
        rw [show keyList (f :: t) = fxactKey f :: keyList t from rfl] at h
        rcases List.mem_cons.1 h with h' | h'
        · exact absurd h'.symm hf
        · exact h'
      obtain ⟨l₁, x, l₂, hdec, hx, hl₁⟩ := ih ht
      exact ⟨f :: l₁, x, l₂, by simp [hdec], hx, by
        intro y hy
        rcases List.mem_cons.1 hy with h' | h'
        · exact h' ▸ hf
        · exact hl₁ y h'⟩

theorem get_one_fdw_xact_none (ctl : FdwXactCtlData) (k : FdwXactKey)
    (h : ∀ f ∈ ctl.fdw_xacts, fxactKey f ≠ k) :
    get_one_fdw_xact ctl k = none := by
  unfold get_one_fdw_xact get_fdw_xacts
  rw [List.filter_eq_nil_iff.2 (fun f hf => by simpa using h f hf)]
  rfl

theorem get_one_fdw_xact_mem (ctl : FdwXactCtlData) (k : FdwXactKey)
    (h : k ∈ keyList ctl.fdw_xacts) :
    ∃ f, get_one_fdw_xact ctl k = some f := by
  unfold get_one_fdw_xact
  cases hh : (get_fdw_xacts ctl k).head? with
  | some f => exact ⟨f, rfl⟩
  | none =>
    rw [List.head?_eq_none_iff] at hh
    obtain ⟨f, hf, hfk⟩ := List.mem_map.1 h
    have : f ∈ get_fdw_xacts ctl k :=
      List.mem_filter.2 ⟨hf, by simpa using hfk⟩
    rw [hh] at this
    cases this

theorem FdwXactRedoRemove_not_mem (ctl : FdwXactCtlData) (k : FdwXactKey)
    (h : ∀ f ∈ ctl.fdw_xacts, fxactKey f ≠ k) :
    FdwXactRedoRemove ctl k = ctl := by
  unfold FdwXactRedoRemove
  simp only [get_one_fdw_xact_none ctl k h]

theorem FdwXactRedoRemove_first (ctl : FdwXactCtlData) (k : FdwXactKey)
    (l₁ : List FdwXactData) (x : FdwXactData) (l₂ : List FdwXactData)
    (hdec : ctl.fdw_xacts = l₁ ++ x :: l₂)
    (hl : ∀ f ∈ l₁, fxactKey f ≠ k) (hx : fxactKey x = k) :
    FdwXactRedoRemove ctl k =
      ⟨removeSwap ctl.fdw_xacts l₁.length, ctl.numFree + 1⟩ := by
  have hmem : k ∈ keyList ctl.fdw_xacts := by
    rw [hdec]
    exact List.mem_map.2 ⟨x, by simp, hx⟩
  obtain ⟨f₀, hf₀⟩ := get_one_fdw_xact_mem ctl k hmem
  have hscan : scanIdx k ctl.fdw_xacts = some l₁.length := by
    rw [hdec]; exact scanIdx_first k l₁ x l₂ hl hx
  unfold FdwXactRedoRemove remove_fdw_xact
  simp only [hf₀, hscan]

theorem removeSwap_keyList_perm (l₁ l₂ : List FdwXactData) (x : FdwXactData) :
    (keyList (removeSwap (l₁ ++ x :: l₂) l₁.length)).Perm
      (keyList l₁ ++ keyList l₂) := by
  have h := (removeSwap_perm l₁ l₂ x).map fxactKey
  simpa [keyList] using h

theorem removeSwap_mem_iff_of_ne (l₁ l₂ : List FdwXactData) (x : FdwXactData)
    (k : FdwXactKey) (hne : k ≠ fxactKey x) :
    k ∈ keyList (removeSwap (l₁ ++ x :: l₂) l₁.length) ↔
      k ∈ keyList (l₁ ++ x :: l₂) := by
  rw [(removeSwap_keyList_perm l₁ l₂ x).mem_iff, keyList_append,
    show keyList (x :: l₂) = fxactKey x :: keyList l₂ from rfl]
  constructor
  · intro h
    rcases List.mem_append.1 h with h | h
    · exact List.mem_append_left _ h
    · exact List.mem_append_right _ (List.mem_cons_of_mem _ h)
  · intro h
    rcases List.mem_append.1 h with h | h
    · exact List.mem_append_left _ h
    · rcases List.mem_cons.1 h with h' | h'
      · exact absurd h' hne
      · exact List.mem_append_right _ h'

theorem not_mem_removeSwap_self (l₁ l₂ : List FdwXactData) (x : FdwXactData)
    (h : (keyList (l₁ ++ x :: l₂)).Nodup) :
    fxactKey x ∉ keyList (removeSwap (l₁ ++ x :: l₂) l₁.length) := by
  rw [(removeSwap_keyList_perm l₁ l₂ x).mem_iff]
  rw [keyList_append, show keyList (x :: l₂) = fxactKey x :: keyList l₂
    from rfl] at h
  obtain ⟨-, n₂, disj⟩ := List.nodup_append.1 h
  intro hmem
  rcases List.mem_append.1 hmem with h' | h'
  · exact disj h' (List.mem_cons_self _ _)
  · exact (List.nodup_cons.1 n₂).1 h'

theorem not_mem_keyList (l : List FdwXactData) (k : FdwXactKey)
    (h : k ∉ keyList l) : ∀ f ∈ l, fxactKey f ≠ k :=
  fun f hf hk => h (List.mem_map.2 ⟨f, hf, hk⟩)

theorem redo_step_uniq_cap {cap : Nat} {s : FdwXactCtlData}
    {r : FdwXactRedoRec} {s₁ : FdwXactCtlData}
    (h : fdw_xact_redo s r = .ok s₁) (hu : uniqK s.fdw_xacts)
    (hc : capInv cap s) : uniqK s₁.fdw_xacts ∧ capInv cap s₁ := by
  cases r with
  | ins d slsn elsn =>
    rw [show fdw_xact_redo s (.ins d slsn elsn) = FdwXactRedoAdd s d slsn elsn
      from rfl, FdwXactRedoAdd_eq] at h
    by_cases hdup : ∃ f ∈ s.fdw_xacts, fxactKey f = diskKey d
    · rw [if_pos hdup] at h; exact absurd h (by simp)
    · rw [if_neg hdup] at h
      by_cases hfree : s.numFree = 0
      · rw [if_pos hfree] at h; exact absurd h (by simp)
      · rw [if_neg hfree] at h
        have hs₁ : s₁ = ⟨s.fdw_xacts ++ [redoEntryOf d slsn elsn],
            s.numFree - 1⟩ := by
          cases h; rfl
        subst hs₁
        constructor
        · unfold uniqK at hu ⊢
          rw [show keyList (s.fdw_xacts ++ [redoEntryOf d slsn elsn]) =
            keyList s.fdw_xacts ++ [diskKey d] by simp [keyList_append]; rfl]
          rw [List.nodup_append]
          refine ⟨hu, by simp, ?_⟩
          intro a ha hb
          have : a = diskKey d := by simpa using hb
          obtain ⟨f, hf, hfk⟩ := List.mem_map.1 ha
          exact hdup ⟨f, hf, by rw [hfk, this]⟩
        · unfold capInv at hc ⊢
          simp only [List.length_append, List.length_cons, List.length_nil]
          omega
  | rem dbid xid serverid userid =>
    have hs₁ : s₁ = FdwXactRedoRemove s ⟨dbid, xid, serverid, userid⟩ := by
      cases h; rfl
    subst hs₁
    by_cases hmem : (⟨dbid, xid, serverid, userid⟩ : FdwXactKey) ∈
        keyList s.fdw_xacts
    · obtain ⟨l₁, x, l₂, hdec, hx, hl₁⟩ := first_key_decomp _ _ hmem
      rw [FdwXactRedoRemove_first s _ l₁ x l₂ hdec hl₁ hx]
      constructor
      · unfold uniqK at hu ⊢
        rw [hdec] at hu ⊢
        obtain ⟨m, hperm, hsub⟩ := removeSwap_keys_subperm l₁ l₂ x
        exact hperm.nodup_iff.1 (List.Nodup.sublist hsub hu)
      · unfold capInv at hc ⊢
        rw [hdec] at hc ⊢
        have hlen : (removeSwap (l₁ ++ x :: l₂) l₁.length).length =
            l₁.length + l₂.length := by
          rw [(removeSwap_perm l₁ l₂ x).length_eq, List.length_append]
        simp only [hlen, List.length_append, List.length_cons] at hc ⊢
        omega
    · rw [FdwXactRedoRemove_not_mem s _ (not_mem_keyList _ _ hmem)]
      exact ⟨hu, hc⟩

theorem applyRedoSeq_uniq_cap {cap : Nat} :
    ∀ {w : List FdwXactRedoRec} {s t : FdwXactCtlData},
      applyRedoSeq s w = .ok t → uniqK s.fdw_xacts → capInv cap s →
      uniqK t.fdw_xacts ∧ capInv cap t := by
  intro w
  induction w with
  | nil =>
    intro s t h hu hc
    cases h
    exact ⟨hu, hc⟩
  | cons r w ih =>
    intro s t h hu hc
    unfold applyRedoSeq at h
    cases hr : fdw_xact_redo s r with
    | error e => rw [hr] at h; exact absurd h (by simp)
    | ok s₁ =>
      rw [hr] at h
      obtain ⟨hu₁, hc₁⟩ := redo_step_uniq_cap hr hu hc
      exact ih h hu₁ hc₁

theorem redo_step_untouched {s : FdwXactCtlData} {r : FdwXactRedoRec}
    {s₁ : FdwXactCtlData} {k : FdwXactKey}
    (h : fdw_xact_redo s r = .ok s₁) (hk : recKey r ≠ k) :
    (k ∈ keyList s₁.fdw_xacts ↔ k ∈ keyList s.fdw_xacts) := by
  cases r with
  | ins d slsn elsn =>
    rw [show fdw_xact_redo s (.ins d slsn elsn) = FdwXactRedoAdd s d slsn elsn
      from rfl, FdwXactRedoAdd_eq] at h
    by_cases hdup : ∃ f ∈ s.fdw_xacts, fxactKey f = diskKey d
    · rw [if_pos hdup] at h; exact absurd h (by simp)
    · rw [if_neg hdup] at h
      by_cases hfree : s.numFree = 0
      · rw [if_pos hfree] at h; exact absurd h (by simp)
      · rw [if_neg hfree] at h
        have hs₁ : s₁ = ⟨s.fdw_xacts ++ [redoEntryOf d slsn elsn],
            s.numFree - 1⟩ := by cases h; rfl
        subst hs₁
        rw [show keyList (s.fdw_xacts ++ [redoEntryOf d slsn elsn]) =
          keyList s.fdw_xacts ++ [diskKey d] by simp [keyList_append]; rfl]
        constructor
        · intro hmem
          rcases List.mem_append.1 hmem with h' | h'
          · exact h'
          · have hkd : k = diskKey d := by simpa using h'
            exact absurd hkd.symm hk
        · exact fun h' => List.mem_append_left _ h'
  | rem dbid xid serverid userid =>
    have hs₁ : s₁ = FdwXactRedoRemove s ⟨dbid, xid, serverid, userid⟩ := by
      cases h; rfl
    subst hs₁
    by_cases hmem : (⟨dbid, xid, serverid, userid⟩ : FdwXactKey) ∈
        keyList s.fdw_xacts
    · obtain ⟨l₁, x, l₂, hdec, hx, hl₁⟩ := first_key_decomp _ _ hmem
      rw [FdwXactRedoRemove_first s _ l₁ x l₂ hdec hl₁ hx]
      have hne : k ≠ fxactKey x := by
        intro he
        apply hk
        show (⟨dbid, xid, serverid, userid⟩ : FdwXactKey) = k
        rw [← hx, ← he]
      rw [show (⟨removeSwap s.fdw_xacts l₁.length, s.numFree + 1⟩ :
          FdwXactCtlData).fdw_xacts = removeSwap s.fdw_xacts l₁.length
        from rfl, hdec]
      exact removeSwap_mem_iff_of_ne l₁ l₂ x k hne
    · rw [FdwXactRedoRemove_not_mem s _ (not_mem_keyList _ _ hmem)]

theorem applyRedoSeq_untouched :
    ∀ {w : List FdwXactRedoRec} {s t : FdwXactCtlData} {k : FdwXactKey},
      applyRedoSeq s w = .ok t → (∀ r ∈ w, recKey r ≠ k) →
      (k ∈ keyList t.fdw_xacts ↔ k ∈ keyList s.fdw_xacts) := by
  intro w
  induction w with
  | nil => intro s t k h _; cases h; rfl
  | cons r w ih =>
    intro s t k h hk
    unfold applyRedoSeq at h
    cases hr : fdw_xact_redo s r with
    | error e => rw [hr] at h; exact absurd h (by simp)
    | ok s₁ =>
      rw [hr] at h
      exact (ih h (fun r' hr' => hk r' (by simp [hr']))).trans
        (redo_step_untouched hr (hk r (by simp)))

theorem isRemoveOf_recKey {k : FdwXactKey} {r : FdwXactRedoRec}
    (h : isRemoveOf k r = true) : recKey r = k := by
  cases r with
  | ins d s e => simp [isRemoveOf] at h
  | rem dbid xid serverid userid => simpa [isRemoveOf, recKey] using h

theorem matchedRemoves_tail {r : FdwXactRedoRec} {w : List FdwXactRedoRec}
    (h : matchedRemoves (r :: w) = true) : matchedRemoves w = true := by
  cases r with
  | ins d s e =>
    have h' : w.any (isRemoveOf (diskKey d)) = true ∧
        matchedRemoves w = true := by
      simpa [matchedRemoves] using h
    exact h'.2
  | rem dbid xid serverid userid => exact h

theorem applyRedoSeq_dead :
    ∀ {w : List FdwXactRedoRec} {s t : FdwXactCtlData},
      applyRedoSeq s w = .ok t → uniqK s.fdw_xacts →
      matchedRemoves w = true →
      ∀ k ∈ recKeys w, k ∉ keyList t.fdw_xacts := by
  intro w
  induction w with
  | nil => intro s t h hu hm k hk; simp [recKeys] at hk
  | cons r w ih =>
    intro s t h hu hm k hk
    unfold applyRedoSeq at h
    cases hr : fdw_xact_redo s r with
    | error e => rw [hr] at h; exact absurd h (by simp)
    | ok s₁ =>
      rw [hr] at h
      have hu₁ : uniqK s₁.fdw_xacts :=
        (@redo_step_uniq_cap (s.fdw_xacts.length + s.numFree) _ _ _ hr hu
          rfl).1
      have hm' : matchedRemoves w = true := matchedRemoves_tail hm
      by_cases hkw : k ∈ recKeys w
      · exact ih h hu₁ hm' k hkw
      · have hkr : recKey r = k := by
          rcases List.mem_cons.1 (show k ∈ recKey r :: recKeys w from hk)
            with h' | h'
          · exact h'.symm
          · exact absurd h' hkw
        cases r with
        | ins d slsn elsn =>
          have hany : w.any (isRemoveOf (diskKey d)) = true := by
            have h' : w.any (isRemoveOf (diskKey d)) = true ∧
                matchedRemoves w = true := by
              simpa [matchedRemoves] using hm
            exact h'.1
          obtain ⟨rr, hrr, hrrk⟩ := List.any_eq_true.1 hany
          have : k ∈ recKeys w := by
            rw [show k = diskKey d from hkr.symm, ← isRemoveOf_recKey hrrk]
            exact List.mem_map.2 ⟨rr, hrr, rfl⟩
          exact absurd this hkw
        | rem dbid xid serverid userid =>
          have hkeq : (⟨dbid, xid, serverid, userid⟩ : FdwXactKey) = k := hkr
          have hks₁ : k ∉ keyList s₁.fdw_xacts := by
            have hs₁ : s₁ = FdwXactRedoRemove s ⟨dbid, xid, serverid, userid⟩ := by
              cases hr; rfl
            subst hs₁
            by_cases hmem : (⟨dbid, xid, serverid, userid⟩ : FdwXactKey) ∈
                keyList s.fdw_xacts
            · obtain ⟨l₁, x, l₂, hdec, hx, hl₁⟩ := first_key_decomp _ _ hmem
              rw [FdwXactRedoRemove_first s _ l₁ x l₂ hdec hl₁ hx]
              rw [show (⟨removeSwap s.fdw_xacts l₁.length, s.numFree + 1⟩ :
                  FdwXactCtlData).fdw_xacts =
                removeSwap s.fdw_xacts l₁.length from rfl, hdec]
              rw [show k = fxactKey x from (hx.trans hkeq).symm]
              exact not_mem_removeSwap_self l₁ l₂ x (by
                rw [← hdec]; exact hu)
            · rw [FdwXactRedoRemove_not_mem s _ (not_mem_keyList _ _ hmem)]
              rw [← hkeq]
              exact hmem
          intro hkt
          have huntouched := applyRedoSeq_untouched h
            (fun r' hr' hk' => hkw (List.mem_map.2 ⟨r', hr', hk'⟩))
          exact hks₁ (huntouched.1 hkt)

theorem applyRedoSeq_matched_sub {w : List FdwXactRedoRec}
    {s t : FdwXactCtlData} (h : applyRedoSeq s w = .ok t)
    (hu : uniqK s.fdw_xacts) (hm : matchedRemoves w = true) :
    ∀ k ∈ keyList t.fdw_xacts, k ∈ keyList s.fdw_xacts := by
  intro k hk
  by_cases hkw : k ∈ recKeys w
  · exact absurd hk (applyRedoSeq_dead h hu hm k hkw)
  · exact (applyRedoSeq_untouched h
      (fun r hr hk' => hkw (List.mem_map.2 ⟨r, hr, hk'⟩))).1 hk

theorem uniqK_append_entry (l : List FdwXactData) (e : FdwXactData)
    (hu : uniqK l) (hk : fxactKey e ∉ keyList l) : uniqK (l ++ [e]) := by
  unfold uniqK at hu ⊢
  rw [keyList_append]
  rw [List.nodup_append]
  refine ⟨hu, by simp [keyList], ?_⟩
  intro a ha hb
  have : a = fxactKey e := by simpa [keyList] using hb
  exact hk (this ▸ ha)

theorem removeSwap_append_left (tA e₁ e₂ : List FdwXactData) (x : FdwXactData) :
    removeSwap ((tA ++ e₁) ++ x :: e₂) (tA ++ e₁).length =
      tA ++ removeSwap (e₁ ++ x :: e₂) e₁.length := by
  induction e₂ using List.reverseRecOn with
  | nil =>
    rw [removeSwap_of_last, removeSwap_of_last]
  | append_singleton e₂' y _ =>
    rw [removeSwap_of_middle, removeSwap_of_middle]
    simp

/-- A replayed REMOVE keeps every other entry: the result of removing `k₀`
from `u` is key-wise contained in the result of removing `k₀` from any `s`
whose keys contain those of `u`. -/
theorem redoRemove_sub {s u : FdwXactCtlData} {k₀ : FdwXactKey}
    (huu : uniqK u.fdw_xacts)
    (hsub : ∀ k ∈ keyList u.fdw_xacts, k ∈ keyList s.fdw_xacts) :
    ∀ k' ∈ keyList (FdwXactRedoRemove u k₀).fdw_xacts,
      k' ∈ keyList (FdwXactRedoRemove s k₀).fdw_xacts := by
  intro k' hk'
  have main : k' ∈ keyList u.fdw_xacts ∧ k' ≠ k₀ := by
    by_cases hmemu : k₀ ∈ keyList u.fdw_xacts
    · obtain ⟨e₁, x, e₂, hudec, hxk, he₁⟩ := first_key_decomp k₀ _ hmemu
      rw [FdwXactRedoRemove_first u k₀ e₁ x e₂ hudec he₁ hxk] at hk'
      rw [show (⟨removeSwap u.fdw_xacts e₁.length, u.numFree + 1⟩ :
          FdwXactCtlData).fdw_xacts = removeSwap u.fdw_xacts e₁.length
        from rfl, hudec] at hk'
      have hne : k' ≠ fxactKey x := by
        intro he
        rw [he, hxk] at hk'
        exact absurd hk' (by
          rw [← hxk]
          exact not_mem_removeSwap_self e₁ e₂ x (by rw [hudec] at huu; exact huu))
      refine ⟨?_, by rw [← hxk]; exact hne⟩
      rw [hudec]
      exact (removeSwap_mem_iff_of_ne e₁ e₂ x k' hne).1 hk'
    · rw [FdwXactRedoRemove_not_mem u k₀ (not_mem_keyList _ _ hmemu)] at hk'
      exact ⟨hk', fun he => hmemu (he ▸ hk')⟩
  obtain ⟨hk'u, hk'ne⟩ := main
  have hk's : k' ∈ keyList s.fdw_xacts := hsub _ hk'u
  by_cases hmems : k₀ ∈ keyList s.fdw_xacts
  · obtain ⟨m₁, y, m₂, hsdec, hyk, hm₁⟩ := first_key_decomp k₀ _ hmems
    rw [FdwXactRedoRemove_first s k₀ m₁ y m₂ hsdec hm₁ hyk]
    rw [show (⟨removeSwap s.fdw_xacts m₁.length, s.numFree + 1⟩ :
        FdwXactCtlData).fdw_xacts = removeSwap s.fdw_xacts m₁.length
      from rfl, hsdec]
    exact (removeSwap_mem_iff_of_ne m₁ m₂ y k' (by rw [hyk]; exact hk'ne)).2
      (by rw [← hsdec]; exact hk's)
  · rw [FdwXactRedoRemove_not_mem s k₀ (not_mem_keyList _ _ hmems)]
    exact hk's

/-- A replayed REMOVE never touches entries whose keys the records cannot
name: when the table is a prefix `tA` (with keys disjoint from `k₀`)
followed by `extras`, the removal happens inside `extras`. -/
theorem redoRemove_prefix {u : FdwXactCtlData} {tA extras : List FdwXactData}
    {k₀ : FdwXactKey} (hu_eq : u.fdw_xacts = tA ++ extras)
    (htA : ∀ f ∈ tA, fxactKey f ≠ k₀) :
    ∃ extras', (FdwXactRedoRemove u k₀).fdw_xacts = tA ++ extras' ∧
      ∀ f ∈ extras', f ∈ extras := by
  by_cases hmem : k₀ ∈ keyList extras
  · obtain ⟨e₁, x, e₂, hexdec, hxk, he₁⟩ := first_key_decomp k₀ _ hmem
    have hudec : u.fdw_xacts = (tA ++ e₁) ++ x :: e₂ := by
      rw [hu_eq, hexdec]; simp
    have htAe₁ : ∀ f ∈ tA ++ e₁, fxactKey f ≠ k₀ := by
      intro f hf
      rcases List.mem_append.1 hf with h' | h'
      · exact htA f h'
      · exact he₁ f h'
    rw [FdwXactRedoRemove_first u k₀ (tA ++ e₁) x e₂ hudec htAe₁ hxk]
    refine ⟨removeSwap (e₁ ++ x :: e₂) e₁.length, ?_, ?_⟩
    · rw [show (⟨removeSwap u.fdw_xacts (tA ++ e₁).length, u.numFree + 1⟩ :
          FdwXactCtlData).fdw_xacts =
        removeSwap u.fdw_xacts (tA ++ e₁).length from rfl, hudec,
        removeSwap_append_left]
    · intro f hf
      rw [hexdec]
      have := (removeSwap_perm e₁ e₂ x).mem_iff.1 hf
      rcases List.mem_append.1 this with h' | h'
      · exact List.mem_append_left _ h'
      · exact List.mem_append_right _ (List.mem_cons_of_mem _ h')
  · have hnotu : k₀ ∉ keyList u.fdw_xacts := by
      rw [hu_eq, keyList_append]
      intro hm
      rcases List.mem_append.1 hm with h' | h'
      · obtain ⟨f, hf, hfk⟩ := List.mem_map.1 h'
        exact htA f hf hfk
      · exact hmem h'
    rw [FdwXactRedoRemove_not_mem u k₀ (not_mem_keyList _ _ hnotu)]
    exact ⟨extras, hu_eq, fun f hf => hf⟩

/-- Simulation of a second replay over a first one: if the table `u` is the
stable prefix `tA` (whose keys no record of `w` mentions) plus `extras`
made of record-keyed entries, and `u`'s keys are contained in `s`'s, then
replaying `w` on `u` succeeds whenever it succeeds on `s`, preserving the
prefix structure and key containment. -/
theorem redo_sim (cap : Nat) (K : List FdwXactKey) (tA : List FdwXactData)
    (hKt : ∀ k ∈ K, k ∉ keyList tA) :
    ∀ (w : List FdwXactRedoRec) (s u : FdwXactCtlData)
      (extras : List FdwXactData) (sf : FdwXactCtlData),
      applyRedoSeq s w = .ok sf →
      u.fdw_xacts = tA ++ extras →
      (∀ r ∈ w, recKey r ∈ K) →
      (∀ f ∈ extras, fxactKey f ∈ K) →
      uniqK s.fdw_xacts → uniqK u.fdw_xacts →
      (∀ k ∈ keyList u.fdw_xacts, k ∈ keyList s.fdw_xacts) →
      capInv cap s → capInv cap u →
      ∃ uf extrasf, applyRedoSeq u w = .ok uf ∧
        uf.fdw_xacts = tA ++ extrasf ∧ (∀ f ∈ extrasf, fxactKey f ∈ K) ∧
        (∀ k ∈ keyList uf.fdw_xacts, k ∈ keyList sf.fdw_xacts) ∧
        uniqK uf.fdw_xacts ∧ capInv cap uf := by
  intro w
  induction w with
  | nil =>
    intro s u extras sf h hu_eq hw hex hus huu hsub hcs hcu
    cases h
    exact ⟨u, extras, rfl, hu_eq, hex, hsub, huu, hcu⟩
  | cons r w ih =>
    intro s u extras sf h hu_eq hw hex hus huu hsub hcs hcu
    unfold applyRedoSeq at h
    cases hstep : fdw_xact_redo s r with
    | error e => rw [hstep] at h; exact absurd h (by simp)
    | ok s₁ =>
      rw [hstep] at h
      cases r with
      | ins d slsn elsn =>
        rw [show fdw_xact_redo s (.ins d slsn elsn) =
          FdwXactRedoAdd s d slsn elsn from rfl, FdwXactRedoAdd_eq] at hstep
        by_cases hdup : ∃ f ∈ s.fdw_xacts, fxactKey f = diskKey d
        · rw [if_pos hdup] at hstep; exact absurd hstep (by simp)
        · rw [if_neg hdup] at hstep
          by_cases hfree : s.numFree = 0
          · rw [if_pos hfree] at hstep; exact absurd hstep (by simp)
          · rw [if_neg hfree] at hstep
            have hs₁ : s₁ = ⟨s.fdw_xacts ++ [redoEntryOf d slsn elsn],
                s.numFree - 1⟩ := by cases hstep; rfl
            subst hs₁
            have hkd : diskKey d ∉ keyList s.fdw_xacts := by
              intro hm
              obtain ⟨f, hf, hfk⟩ := List.mem_map.1 hm
              exact hdup ⟨f, hf, hfk⟩
            have hkdu : diskKey d ∉ keyList u.fdw_xacts :=
              fun hm => hkd (hsub _ hm)
            have hdupu : ¬ ∃ f ∈ u.fdw_xacts, fxactKey f = diskKey d :=
              fun ⟨f, hf, hfk⟩ => hkdu (List.mem_map.2 ⟨f, hf, hfk⟩)
            have hlenle : u.fdw_xacts.length ≤ s.fdw_xacts.length := by
              have h1 : (keyList u.fdw_xacts).Subperm (keyList s.fdw_xacts) :=
                List.subperm_of_subset huu (fun a ha => hsub a ha)
              simpa [keyList] using h1.length_le
            have hfreeu : u.numFree ≠ 0 := by
              unfold capInv at hcs hcu
              omega
            have hustep : FdwXactRedoAdd u d slsn elsn =
                .ok ⟨u.fdw_xacts ++ [redoEntryOf d slsn elsn],
                     u.numFree - 1⟩ := by
              rw [FdwXactRedoAdd_eq, if_neg hdupu, if_neg hfreeu]
            have hkK : diskKey d ∈ K := hw (.ins d slsn elsn) (by simp)
            obtain ⟨uf, extrasf, hseq, hufeq, hexf, hsubf, huf, hcuf⟩ :=
              ih ⟨s.fdw_xacts ++ [redoEntryOf d slsn elsn], s.numFree - 1⟩
                ⟨u.fdw_xacts ++ [redoEntryOf d slsn elsn], u.numFree - 1⟩
                (extras ++ [redoEntryOf d slsn elsn]) sf h
                (by rw [show (⟨u.fdw_xacts ++ [redoEntryOf d slsn elsn],
                    u.numFree - 1⟩ : FdwXactCtlData).fdw_xacts =
                  u.fdw_xacts ++ [redoEntryOf d slsn elsn] from rfl, hu_eq,
                  List.append_assoc])
                (fun r hr => hw r (List.mem_cons_of_mem _ hr))
                (by
                  intro f hf
                  rcases List.mem_append.1 hf with h' | h'
                  · exact hex f h'
                  · rw [show f = redoEntryOf d slsn elsn by simpa using h',
                      fxactKey_redoEntryOf]
                    exact hkK)
                (uniqK_append_entry _ _ hus hkd)
                (uniqK_append_entry _ _ huu hkdu)
                (by
                  intro k hk
                  rw [show keyList (u.fdw_xacts ++ [redoEntryOf d slsn elsn]) =
                    keyList u.fdw_xacts ++ [diskKey d] by
                      simp [keyList_append]; rfl] at hk
                  rw [show keyList (s.fdw_xacts ++ [redoEntryOf d slsn elsn]) =
                    keyList s.fdw_xacts ++ [diskKey d] by
                      simp [keyList_append]; rfl]
                  rcases List.mem_append.1 hk with h' | h'
                  · exact List.mem_append_left _ (hsub _ h')
                  · exact List.mem_append_right _ h')
                (by
                  unfold capInv at hcs ⊢
                  simp only [List.length_append, List.length_cons,
                    List.length_nil]
                  omega)
                (by
                  unfold capInv at hcu ⊢
                  simp only [List.length_append, List.length_cons,
                    List.length_nil]
                  omega)
            refine ⟨uf, extrasf, ?_, hufeq, hexf, hsubf, huf, hcuf⟩
            unfold applyRedoSeq
            rw [show fdw_xact_redo u (.ins d slsn elsn) =
              FdwXactRedoAdd u d slsn elsn from rfl, hustep]
            exact hseq
      | rem dbid xid serverid userid =>
        have hs₁ : s₁ = FdwXactRedoRemove s ⟨dbid, xid, serverid, userid⟩ := by
          cases hstep; rfl
        subst hs₁
        have hk₀K : (⟨dbid, xid, serverid, userid⟩ : FdwXactKey) ∈ K :=
          hw (.rem dbid xid serverid userid) (by simp)
        have htA : ∀ f ∈ tA, fxactKey f ≠ ⟨dbid, xid, serverid, userid⟩ := by
          intro f hf hfk
          exact hKt _ hk₀K (List.mem_map.2 ⟨f, hf, hfk⟩)
        obtain ⟨extras', hueq', hex'⟩ := redoRemove_prefix hu_eq htA
        have hstepu : fdw_xact_redo u (.rem dbid xid serverid userid) =
            .ok (FdwXactRedoRemove u ⟨dbid, xid, serverid, userid⟩) := rfl
        have hsteps : fdw_xact_redo s (.rem dbid xid serverid userid) =
            .ok (FdwXactRedoRemove s ⟨dbid, xid, serverid, userid⟩) := rfl
        obtain ⟨hus₁, hcs₁⟩ := redo_step_uniq_cap hsteps hus hcs
        obtain ⟨huu₁, hcu₁⟩ := redo_step_uniq_cap hstepu huu hcu
        obtain ⟨uf, extrasf, hseq, hufeq, hexf, hsubf, huf, hcuf⟩ :=
          ih (FdwXactRedoRemove s ⟨dbid, xid, serverid, userid⟩)
            (FdwXactRedoRemove u ⟨dbid, xid, serverid, userid⟩) extras' sf h
            hueq' (fun r hr => hw r (List.mem_cons_of_mem _ hr))
            (fun f hf => hex f (hex' f hf)) hus₁ huu₁
            (redoRemove_sub huu hsub) hcs₁ hcu₁
        refine ⟨uf, extrasf, ?_, hufeq, hexf, hsubf, huf, hcuf⟩
        unfold applyRedoSeq
        rw [hstepu]
        exact hseq

/-- C9 (amended).  Replaying a sequence of FXact WAL records in which every
INSERT is followed by a later REMOVE of the same key is idempotent: if a
single replay from a well-formed table succeeds, replaying the same
sequence N ≥ 1 times in a row leaves the FXact table in exactly the state
a single replay produces.  (Without the matched-REMOVE premise a second
replay of an INSERT whose entry still exists fails with the duplicate-entry
error of `insert_fdw_xact`; see the counterexample.) -/
theorem redo_replay_idempotent (cap : Nat) (w : List FdwXactRedoRec)
    (s t : FdwXactCtlData) (n : Nat) (hu : uniqK s.fdw_xacts)
    (hc : capInv cap s) (hm : matchedRemoves w = true)
    (h1 : applyRedoSeq s w = .ok t) (hn : 1 ≤ n) :
    applyRedoPow s w n = .ok t := by
  have hdead : ∀ k ∈ recKeys w, k ∉ keyList t.fdw_xacts :=
    applyRedoSeq_dead h1 hu hm
  have hfix : applyRedoSeq t w = .ok t := by
    obtain ⟨hut, hct⟩ := @applyRedoSeq_uniq_cap cap _ _ _ h1 hu hc
    have hsubts : ∀ k ∈ keyList t.fdw_xacts, k ∈ keyList s.fdw_xacts :=
      applyRedoSeq_matched_sub h1 hu hm
    obtain ⟨uf, extrasf, hseq, hufeq, hexf, hsubf, huf, hcuf⟩ :=
      redo_sim cap (recKeys w) t.fdw_xacts hdead w s t [] t h1
        (by simp) (fun r hr => List.mem_map.2 ⟨r, hr, rfl⟩)
        (by simp) hu hut hsubts hc hct
    have hextras_nil : extrasf = [] := by
      rw [List.eq_nil_iff_forall_not_mem]
      intro f hf
      have h2 : fxactKey f ∈ keyList uf.fdw_xacts := by
        rw [hufeq]
        exact List.mem_map.2 ⟨f, List.mem_append_right _ hf, rfl⟩
      exact hdead _ (hexf f hf) (hsubf _ h2)
    have hufA : uf.fdw_xacts = t.fdw_xacts := by
      rw [hufeq, hextras_nil, List.append_nil]
    have huffree : uf.numFree = t.numFree := by
      unfold capInv at hcuf hct
      rw [hufA] at hcuf
      omega
    have huft : uf = t := by
      have h4 : uf = ⟨uf.fdw_xacts, uf.numFree⟩ := rfl
      rw [h4, hufA, huffree]
    rw [huft] at hseq
    exact hseq
  induction n with
  | zero => exact absurd hn (by omega)
  | succ m ihm =>
    by_cases hm0 : m = 0
    · subst hm0
      simp only [applyRedoPow]
      exact h1
    · have hpm := ihm (Nat.one_le_iff_ne_zero.2 hm0)
      show applyRedoPow s w (m + 1) = .ok t
      unfold applyRedoPow
      rw [hpm]
      exact hfix

/-- The WAL insert payload used in the C9 scenarios. -/
def recA : FdwXactOnDiskData := ⟨1, 10, 2, 3, 4, "fx_a"⟩

/-- Counterexample for C9: replaying the single-record sequence
`[INSERT recA]` once succeeds, but replaying it twice fails with the
duplicate-entry error of `insert_fdw_xact` — it does not leave the table
in the same state as replaying it once. -/
theorem redo_replay_twice_errors :
    applyRedoPow emptyCtl8 [.ins recA 5 6] 1 =
      .ok ⟨[redoEntryOf recA 5 6], 7⟩ ∧
    applyRedoPow emptyCtl8 [.ins recA 5 6] 2 = .error .duplicate_entry := by
  constructor
  · rfl
  · rfl

/-- Witness for C9 (amended): the matched sequence
`[INSERT recA, REMOVE key(recA)]` replayed three times from the empty
table gives the same (empty) table as replaying it once. -/
theorem redo_replay_idempotent_witness :
    applyRedoPow emptyCtl8 [.ins recA 5 6, .rem 1 10 2 3] 3 =
      .ok emptyCtl8 :=
  redo_replay_idempotent 8 [.ins recA 5 6, .rem 1 10 2 3] emptyCtl8
    emptyCtl8 3 (by decide) (by decide) (by decide) (by rfl) (by decide)
